import Mathlib

/-!
Verification development for the payee name deduplication and fuzzy-matching
engine.  The definitions below are a shallow embedding of the TypeScript
sources (`src/lib/classification/nameProcessing.ts`,
`src/lib/classification/batchDeduplication.ts`,
`src/lib/classification/batchExporter.ts`, `src/lib/openai/config.ts`).
JavaScript strings are modelled as Lean `String`/`List Char`; the Unicode
built-ins `toUpperCase` and `normalize('NFD')` are modelled character-wise
with a representative table of accented characters; numbers are modelled as
exact rationals.  The string-similarity metrics module
(`stringMatching.ts`) is not present in the repository snapshot (only its
tests and callers are), so those functions are modelled from the spec and
marked as such in their doc comments.
-/

set_option allowUnsafeReducibility true

attribute [semireducible] Rat.add Rat.sub Rat.mul Rat.div Rat.inv

namespace PayeeEngine

/-- JavaScript whitespace characters relevant to `\s`, `trim` and `split`. -/
def isJsWs (c : Char) : Bool :=
  c = ' ' || c = '\t' || c = '\n' || c = '\x0d' || c = '\x0b' || c = '\x0c'

/-- JavaScript regex word characters (`\w` = `[A-Za-z0-9_]`). -/
def isWordChar (c : Char) : Bool :=
  (('A' ≤ c && c ≤ 'Z') || ('a' ≤ c && c ≤ 'z') || ('0' ≤ c && c ≤ '9') || c = '_')

/-- The punctuation class removed by `normalizePayeeName`:
`[-\\',./#!$%^&*;:{}=_`~()]` (see nameProcessing.ts line 21). -/
def punctChars : List Char :=
  ['-', '\\', Char.ofNat 39, ',', '.', '/', '#', '!', '$', '%', '^', '&',
   '*', ';', ':', Char.ofNat 123, Char.ofNat 125, '=', '_', Char.ofNat 96,
   '~', '(', ')']

/-- Representative table of accented lowercase letters and their uppercase
forms, modelling `String.prototype.toUpperCase` beyond ASCII. -/
def accentUpperPairs : List (Char × Char) :=
  [('á', 'Á'), ('à', 'À'), ('â', 'Â'), ('ä', 'Ä'), ('é', 'É'), ('è', 'È'),
   ('ê', 'Ê'), ('ë', 'Ë'), ('í', 'Í'), ('ì', 'Ì'), ('î', 'Î'), ('ï', 'Ï'),
   ('ó', 'Ó'), ('ò', 'Ò'), ('ô', 'Ô'), ('ö', 'Ö'), ('ú', 'Ú'), ('ù', 'Ù'),
   ('û', 'Û'), ('ü', 'Ü'), ('ñ', 'Ñ'), ('ç', 'Ç')]

/-- Character-wise model of `toUpperCase`. -/
def jsUpChar (c : Char) : Char :=
  match accentUpperPairs.find? (fun p => p.1 = c) with
  | some p => p.2
  | none => c.toUpper

/-- The combining acute accent U+0301, used in the NFD table. -/
def combAcute : Char := Char.ofNat 0x0301

/-- The combining grave accent U+0300. -/
def combGrave : Char := Char.ofNat 0x0300

/-- The combining circumflex U+0302. -/
def combCirc : Char := Char.ofNat 0x0302

/-- The combining diaeresis U+0308. -/
def combDia : Char := Char.ofNat 0x0308

/-- The combining tilde U+0303. -/
def combTilde : Char := Char.ofNat 0x0303

/-- The combining cedilla U+0327. -/
def combCedilla : Char := Char.ofNat 0x0327

/-- Representative table of NFD decompositions for the precomposed
characters in `accentUpperPairs` and their uppercase forms. -/
def nfdTable : List (Char × List Char) :=
  [('Á', ['A', combAcute]), ('À', ['A', combGrave]), ('Â', ['A', combCirc]),
   ('Ä', ['A', combDia]), ('É', ['E', combAcute]), ('È', ['E', combGrave]),
   ('Ê', ['E', combCirc]), ('Ë', ['E', combDia]), ('Í', ['I', combAcute]),
   ('Ì', ['I', combGrave]), ('Î', ['I', combCirc]), ('Ï', ['I', combDia]),
   ('Ó', ['O', combAcute]), ('Ò', ['O', combGrave]), ('Ô', ['O', combCirc]),
   ('Ö', ['O', combDia]), ('Ú', ['U', combAcute]), ('Ù', ['U', combGrave]),
   ('Û', ['U', combCirc]), ('Ü', ['U', combDia]), ('Ñ', ['N', combTilde]),
   ('Ç', ['C', combCedilla]),
   ('á', ['a', combAcute]), ('à', ['a', combGrave]), ('â', ['a', combCirc]),
   ('ä', ['a', combDia]), ('é', ['e', combAcute]), ('è', ['e', combGrave]),
   ('ê', ['e', combCirc]), ('ë', ['e', combDia]), ('í', ['i', combAcute]),
   ('ì', ['i', combGrave]), ('î', ['i', combCirc]), ('ï', ['i', combDia]),
   ('ó', ['o', combAcute]), ('ò', ['o', combGrave]), ('ô', ['o', combCirc]),
   ('ö', ['o', combDia]), ('ú', ['u', combAcute]), ('ù', ['u', combGrave]),
   ('û', ['u', combCirc]), ('ü', ['u', combDia]), ('ñ', ['n', combTilde]),
   ('ç', ['c', combCedilla])]

/-- Character-wise model of `normalize('NFD')`. -/
def nfdChar (c : Char) : List Char :=
  match nfdTable.find? (fun p => p.1 = c) with
  | some p => p.2
  | none => [c]

/-- Combining diacritical marks U+0300–U+036F, the class stripped by
`replace(/[̀-ͯ]/g, '')`. -/
def isCombiningMark (c : Char) : Bool :=
  0x0300 ≤ c.toNat && c.toNat ≤ 0x036f

/-- Replace each whitespace run by a single space: the `replace(/\s+/g, ' ')`
step.  `prevWs` records whether the previous character was whitespace. -/
def collapseWsAux : Bool → List Char → List Char
  | _, [] => []
  | prevWs, c :: rest =>
    if isJsWs c then
      if prevWs then collapseWsAux true rest
      else ' ' :: collapseWsAux true rest
    else c :: collapseWsAux false rest

/-- The `replace(/\s+/g, ' ')` step. -/
def collapseWs (cs : List Char) : List Char := collapseWsAux false cs

/-- Model of `String.prototype.trim`. -/
def trimWs (cs : List Char) : List Char :=
  ((cs.dropWhile isJsWs).reverse.dropWhile isJsWs).reverse

/-- The legal-entity suffix alternation of
`/\b(LLC|INC|CORP|LTD|LP|LLP|PC|PLLC)\b\.?$/g`. -/
def legalSuffixTokens : List (List Char) :=
  [['L','L','C'], ['I','N','C'], ['C','O','R','P'], ['L','T','D'],
   ['L','P'], ['L','L','P'], ['P','C'], ['P','L','L','C']]

/-- Does `cs` consist exactly of `tok` optionally followed by a dot?  This is
the tail of a match of `\b(TOK)\b\.?$`: the `$` anchor forces the match to
extend to the end of the string, and the inner `\b` after the token is
guaranteed by the following dot or the end of input. -/
def suffixTail (tok cs : List Char) : Bool :=
  cs = tok || cs = tok ++ ['.']

/-- Scan for the first position with a word boundary before it at which some
legal suffix token matches through to the end of the string.
`prevIsWord` records whether the previous character is a word character
(no previous character counts as a boundary). -/
def findSuffixStart : Bool → List Char → Option Nat
  | _, [] => none
  | prevIsWord, c :: rest =>
    if !prevIsWord && legalSuffixTokens.any (fun tok => suffixTail tok (c :: rest)) then
      some 0
    else
      match findSuffixStart (isWordChar c) rest with
      | some i => some (i + 1)
      | none => none

/-- The `replace(/\b(LLC|INC|CORP|LTD|LP|LLP|PC|PLLC)\b\.?$/g, '')` step: since the
match is anchored at the end, at most one match is removed and the result is
the prefix before it. -/
def stripLegalSuffix (cs : List Char) : List Char :=
  match findSuffixStart false cs with
  | some i => cs.take i
  | none => cs

/-- Is there a word boundary after a match of `w` starting here, i.e. is the
character following the matched occurrence absent or a non-word character? -/
def boundaryAfter (cs : List Char) : Bool :=
  match cs with
  | [] => true
  | d :: _ => !isWordChar d

/-- Fuelled scanner for `removeWord`; the fuel dominates the length of the
remaining input, so the fuel-exhausted branch is unreachable when the
scanner is started with enough fuel. -/
def removeWordFuel (w : List Char) : Nat → Bool → List Char → List Char
  | 0, _, cs => cs
  | _ + 1, _, [] => []
  | fuel + 1, prevIsWord, c :: rest =>
    if w ≠ [] ∧ prevIsWord = false ∧ (c :: rest).take w.length = w ∧
        boundaryAfter ((c :: rest).drop w.length) then
      removeWordFuel w fuel true ((c :: rest).drop w.length)
    else
      c :: removeWordFuel w fuel (isWordChar c) rest

/-- The `replace(/\bWORD\b/g, '')` step: remove every occurrence of `w` that is
delimited by word boundaries; scanning resumes after each removed
occurrence, as with a global regex replace. -/
def removeWord (w : List Char) (prevIsWord : Bool) (cs : List Char) : List Char :=
  removeWordFuel w cs.length prevIsWord cs

/-- The four standalone corporate words removed by `normalizePayeeName`. -/
def corpWords : List (List Char) :=
  [['C','O','R','P','O','R','A','T','I','O','N'],
   ['I','N','C','O','R','P','O','R','A','T','E','D'],
   ['L','I','M','I','T','E','D'],
   ['C','O','M','P','A','N','Y']]

/-- The character pipeline of `normalizePayeeName` (nameProcessing.ts lines
15–34): uppercase, NFD + strip combining marks, punctuation to spaces,
whitespace collapse, trim, trailing legal suffix strip, corporate word
removal, trim. -/
def normalizeChars (cs : List Char) : List Char :=
  trimWs
    (corpWords.foldl (fun acc w => removeWord w false acc)
      (stripLegalSuffix
        (trimWs
          (collapseWs
            ((((cs.map jsUpChar).flatMap nfdChar).filter
                (fun c => !isCombiningMark c)).map
              (fun c => if c ∈ punctChars then ' ' else c))))))

/-- Embedding of `normalizePayeeName` from nameProcessing.ts: the falsy guard
`if (!name) return ''` followed by the normalization pipeline. -/
def normalizePayeeName (name : String) : String :=
  if name = "" then "" else ⟨normalizeChars name.data⟩

/-- A normalized name together with its content hash
(`normalizeName` in nameProcessing.ts).  The SHA-256 hash function lives in
an external library, so it is taken as a parameter. -/
structure NormalizedName where
  normalized : String
  hash : String
  deriving Repr, DecidableEq

/-- Embedding of `normalizeName` from nameProcessing.ts, parametric in the hash
function supplied by the `crypto` module. -/
def normalizeName (hashFn : String → String) (name : String) : NormalizedName :=
  let normalized := normalizePayeeName name
  { normalized := normalized, hash := hashFn normalized }

/-- The function `normalizeName` on a possibly-absent input: JavaScript callers can pass
`null`/`undefined`, which the falsy guard maps to the empty string. -/
def normalizeNameOpt (hashFn : String → String) : Option String → NormalizedName
  | none => { normalized := "", hash := hashFn "" }
  | some s => normalizeName hashFn s

/-- Model of a JavaScript runtime value reaching `normalizePayeeName`.  The
TypeScript signature restricts the parameter to `string`, but spreadsheet
cells can carry numbers or booleans at runtime and the spec speaks of
arbitrary (including non-string) input, so the embedding covers strings,
numbers, booleans and the nullish values. -/
inductive JsValue where
  | str (s : String)
  | num (q : ℚ)
  | bool (b : Bool)
  | nullish
  deriving Repr, DecidableEq

/-- JavaScript truthiness of a modelled runtime value: the empty string,
zero, `false`, `null` and `undefined` are falsy, everything else truthy. -/
def jsTruthy : JsValue → Bool
  | .str s => decide (s ≠ "")
  | .num q => decide (q ≠ 0)
  | .bool b => b
  | .nullish => false

/-- Embedding of `normalizePayeeName` as executed on an arbitrary runtime
value: the guard `if (!name) return ''` (nameProcessing.ts:13) hands every
truthy value to `name.toUpperCase()` (line 17), which only strings support —
a truthy non-string raises a TypeError, modelled as `.error`. -/
def normalizePayeeNameJs (v : JsValue) : Except String String :=
  if jsTruthy v then
    match v with
    | .str s => .ok (normalizePayeeName s)
    | _ => .error "TypeError: name.toUpperCase is not a function"
  else .ok ""

/-- Embedding of `normalizeName` on an arbitrary runtime value: hash the
normalized form when normalization succeeds, propagate the TypeError
otherwise. -/
def normalizeNameJs (hashFn : String → String) (v : JsValue) :
    Except String NormalizedName :=
  (normalizePayeeNameJs v).map (fun n => { normalized := n, hash := hashFn n })

/-! ### String similarity metrics

`stringMatching.ts` itself is not part of the repository snapshot — only its
test suite and its callers are — so the four metrics and the combined score
are modelled from the spec (§4.2 and §3 of spec.md), with the invariant that
identical strings score 100 on every metric. -/

/-- One row-update step of the Levenshtein dynamic program: given the
character `ca` of the first string, the remaining characters of the second
string, the diagonal entry `diag` (= prev[j]), the rest of the previous row
(starting at prev[j+1]) and the entry `left` just computed (= new[j]),
produce new[j+1..]. -/
def levAux (ca : Char) : List Char → Nat → List Nat → Nat → List Nat
  | [], _, _, _ => []
  | cb :: bs, diag, prevRest, left =>
    let up := prevRest.headD 0
    let cost := if ca = cb then diag else diag + 1
    let v := min cost (min (up + 1) (left + 1))
    v :: levAux ca bs up prevRest.tail v

/-- The next full row of the Levenshtein dynamic program. -/
def levNextRow (b : List Char) (prev : List Nat) (ca : Char) : List Nat :=
  let left := prev.headD 0 + 1
  left :: levAux ca b (prev.headD 0) prev.tail left

/-- Levenshtein edit distance, computed row by row. -/
def levDist (a b : List Char) : Nat :=
  (a.foldl (levNextRow b) (List.range (b.length + 1))).getLastD 0

/-- Modelled from the spec: `levenshteinSimilarity` of the missing
`stringMatching.ts` — `100 * (1 - editDistance(a,b) / max(len(a), len(b)))`,
with both-empty mapped to 100. -/
def levenshteinSimilarity (a b : String) : ℚ :=
  let m := max a.length b.length
  if m = 0 then 100
  else 100 - 100 * (levDist a.data b.data : ℚ) / (m : ℚ)

/-- Find the smallest unused index `j` of `b` in the window `[lo, hi]` whose
character equals `target`, for the Jaro matching phase. -/
def jaroFindMatch (b : List Char) (used : List Bool) (target : Char)
    (lo hi : Nat) : Option Nat :=
  (List.range' lo (hi + 1 - lo)).find? (fun j =>
    j < b.length && !(used.getD j true) && b.getD j ' ' = target)

/-- The Jaro matching phase: walk the characters of `a` with their indices,
marking at most one matching character of `b` inside the window for each;
returns the matched characters of `a` in order and the usage flags of `b`. -/
def jaroMatches (b : List Char) (window : Nat) :
    List (Nat × Char) → List Bool → List Char × List Bool
  | [], used => ([], used)
  | (i, ca) :: rest, used =>
    match jaroFindMatch b used ca (i - window) (i + window) with
    | some j =>
      let (ms, used') := jaroMatches b window rest (used.set j true)
      (ca :: ms, used')
    | none => jaroMatches b window rest used

/-- Modelled from the spec: the standard Jaro similarity on [0,1] — match
window `⌊max/2⌋ - 1`, transpositions counted as half the mismatched
positions among matched characters. -/
def jaroValue (a b : List Char) : ℚ :=
  let window := max a.length b.length / 2 - 1
  let (ma, used) := jaroMatches b window a.enum (List.replicate b.length false)
  let mb := (b.zip used).filterMap (fun p => if p.2 then some p.1 else none)
  let m := ma.length
  if m = 0 then 0
  else
    let t2 := ((ma.zip mb).filter (fun p => p.1 ≠ p.2)).length
    ((m : ℚ) / a.length + (m : ℚ) / b.length + ((m : ℚ) - (t2 : ℚ) / 2) / m) / 3

/-- Length of the common prefix of two character lists. -/
def commonPrefixLen : List Char → List Char → Nat
  | a :: as, b :: bs => if a = b then commonPrefixLen as bs + 1 else 0
  | _, _ => 0

/-- Modelled from the spec: `jaroWinklerSimilarity` of the missing
`stringMatching.ts` — Jaro similarity with a common-prefix boost (prefix
length capped at 4, boost factor 0.1), scaled to 0–100; identical strings
score 100, one-empty pairs score 0. -/
def jaroWinklerSimilarity (a b : String) : ℚ :=
  if a = b then 100
  else if a = "" || b = "" then 0
  else
    let j := jaroValue a.data b.data
    let l := min (commonPrefixLen a.data b.data) 4
    100 * (j + (l : ℚ) * (1 / 10) * (1 - j))

/-- The list of bigrams of a character list. -/
def bigrams (cs : List Char) : List (Char × Char) :=
  cs.zip cs.tail

/-- Modelled from the spec: `diceCoefficient` of the missing
`stringMatching.ts` — bigram-set overlap
`100 * 2*|bigrams(a) ∩ bigrams(b)| / (|bigrams(a)| + |bigrams(b)|)`;
identical strings score 100, strings shorter than 2 characters have no
bigrams and mismatched pairs involving them score 0. -/
def diceCoefficient (a b : String) : ℚ :=
  if a = b then 100
  else if a.length < 2 || b.length < 2 then 0
  else
    let ba := (bigrams a.data).eraseDups
    let bb := (bigrams b.data).eraseDups
    let inter := (ba.filter (fun g => g ∈ bb)).length
    100 * 2 * (inter : ℚ) / ((ba.length : ℚ) + (bb.length : ℚ))

/-- Insert `x` after every element `y` with `le y x`, keeping the list
sorted and placing `x` after earlier elements that compare equal. -/
def insertOrdered (le : α → α → Bool) (x : α) : List α → List α
  | [] => [x]
  | y :: ys => if le y x then y :: insertOrdered le x ys else x :: y :: ys

/-- Stable insertion sort, modelling JavaScript's stable `Array.sort`:
elements are inserted left to right, so ties keep their original order. -/
def stableSort (le : α → α → Bool) (xs : List α) : List α :=
  xs.foldl (fun acc x => insertOrdered le x acc) []

/-- Token splitter: accumulate the current token (reversed) and cut at each
whitespace character, dropping empty tokens. -/
def splitTokensAux : List Char → List Char → List (List Char)
  | acc, [] => if acc = [] then [] else [acc.reverse]
  | acc, c :: rest =>
    if isJsWs c then
      if acc = [] then splitTokensAux [] rest
      else acc.reverse :: splitTokensAux [] rest
    else splitTokensAux (c :: acc) rest

/-- Split a character list into whitespace-separated tokens. -/
def splitTokens (cs : List Char) : List (List Char) :=
  splitTokensAux [] cs

/-- Modelled from the spec: `tokenSortRatio` of the missing
`stringMatching.ts` — tokenize on whitespace, sort the tokens
alphabetically, rejoin with single spaces, and apply Levenshtein
similarity to the rejoined strings. -/
def tokenSortRatio (a b : String) : ℚ :=
  let sortJoin := fun (s : String) =>
    String.intercalate " "
      (stableSort (fun x y => x ≤ y) ((splitTokens s.data).map (fun t => (⟨t⟩ : String))))
  levenshteinSimilarity (sortJoin a) (sortJoin b)

/-- The weight set for the combined similarity score. -/
structure SimilarityWeights where
  levenshtein : ℚ
  jaroWinkler : ℚ
  dice : ℚ
  tokenSort : ℚ
  deriving Repr, DecidableEq

/-- Modelled from the spec (§3): the default weights 0.25 / 0.35 / 0.25 /
0.15. -/
def DEFAULT_SIMILARITY_WEIGHTS : SimilarityWeights :=
  { levenshtein := 1/4, jaroWinkler := 7/20, dice := 1/4, tokenSort := 3/20 }

/-- The five-score result of `calculateCombinedSimilarity`. -/
structure SimilarityScoreSet where
  levenshtein : ℚ
  jaroWinkler : ℚ
  dice : ℚ
  tokenSort : ℚ
  combined : ℚ
  deriving Repr, DecidableEq

/-- The four metric scores of a pair together with their weighted sum. -/
def scoreSet (a b : String) (w : SimilarityWeights) : SimilarityScoreSet :=
  let lev := levenshteinSimilarity a b
  let jw := jaroWinklerSimilarity a b
  let dc := diceCoefficient a b
  let ts := tokenSortRatio a b
  { levenshtein := lev, jaroWinkler := jw, dice := dc, tokenSort := ts,
    combined := lev * w.levenshtein + jw * w.jaroWinkler + dc * w.dice + ts * w.tokenSort }

/-- Do the weights sum to 1 within the floating tolerance? -/
def weightsValid (w : SimilarityWeights) : Bool :=
  let s := w.levenshtein + w.jaroWinkler + w.dice + w.tokenSort - 1
  decide (-(1/1000 : ℚ) ≤ s) && decide (s ≤ (1/1000 : ℚ))

/-- Modelled from the spec: `calculateCombinedSimilarity` of the missing
`stringMatching.ts` — computes all four metrics and their weighted sum, and
fails with an error (rather than silently renormalizing) when the supplied
weights do not sum to 1.0 within floating tolerance. -/
def calculateCombinedSimilarity (a b : String)
    (w : SimilarityWeights := DEFAULT_SIMILARITY_WEIGHTS) :
    Except String SimilarityScoreSet :=
  if weightsValid w then .ok (scoreSet a b w)
  else .error "Similarity weights must sum to 1.0"

/-- The combined score under the default weights, used by the callers that
invoke `calculateCombinedSimilarity(a, b)` without custom weights. -/
def combinedDefault (a b : String) : ℚ :=
  (scoreSet a b DEFAULT_SIMILARITY_WEIGHTS).combined

/-! ### Name similarity and local deduplication (nameProcessing.ts) -/

/-- The constant `NAME_SIMILARITY_THRESHOLD` from config.ts: 85. -/
def NAME_SIMILARITY_THRESHOLD : ℚ := 85

/-- Embedding of `areSimilarNames` from nameProcessing.ts, parametric in the threshold:
normalize both names, accept on exact equality, otherwise compare the
Jaro-Winkler similarity of the normalized forms against the threshold. -/
def areSimilarNamesT (t : ℚ) (name1 name2 : String) : Bool :=
  let normalized1 := normalizePayeeName name1
  let normalized2 := normalizePayeeName name2
  if normalized1 = normalized2 then true
  else jaroWinklerSimilarity normalized1 normalized2 ≥ t

/-- The function `areSimilarNames` at the configured threshold. -/
def areSimilarNames (name1 name2 : String) : Bool :=
  areSimilarNamesT NAME_SIMILARITY_THRESHOLD name1 name2

/-- Duplicate-group maps are insertion-ordered association lists from a
canonical normalized name to the raw member names, modelling a JavaScript
`Map<string, string[]>`. -/
abbrev GroupMap := List (String × List String)

/-- Model of `Map.get`. -/
def mapLookup (m : GroupMap) (k : String) : Option (List String) :=
  (m.find? (fun p => p.1 = k)).map (fun p => p.2)

/-- Append one member to the entry for `k`, creating the entry at the end in
insertion order when absent (the `if (!m.has(k)) m.set(k, []); m.get(k).push(v)`
idiom). -/
def mapPush : GroupMap → String → String → GroupMap
  | [], k, v => [(k, [v])]
  | (k', vs) :: rest, k, v =>
    if k' = k then (k', vs ++ [v]) :: rest
    else (k', vs) :: mapPush rest k v

/-- Append a list of members to the entry for `k`, creating the entry at the
end when absent (the merge idiom of `deduplicateNames`). -/
def mapPushAll : GroupMap → String → List String → GroupMap
  | [], k, vs => [(k, vs)]
  | (k', vs') :: rest, k, vs =>
    if k' = k then (k', vs' ++ vs) :: rest
    else (k', vs') :: mapPushAll rest k vs

/-- Model of `Map.set`: overwrite the value in place when the key exists, otherwise
append the new entry. -/
def mapSet : GroupMap → String → List String → GroupMap
  | [], k, vs => [(k, vs)]
  | (k', vs') :: rest, k, vs =>
    if k' = k then (k', vs) :: rest
    else (k', vs') :: mapSet rest k vs

/-- First pass of `localDeduplicateNames`: group the raw names by their
normalized form, in first-occurrence order. -/
def buildExact (names : List String) : GroupMap :=
  names.foldl (fun m nm => mapPush m (normalizePayeeName nm) nm) []

/-- The inner loop of the second pass: walk the established groups in
insertion order and add the members to the first group whose canonical is
similar to `norm`; `none` when no canonical matches. -/
def addToFirstSimilar (sim : String → String → Bool) :
    GroupMap → String → List String → Option GroupMap
  | [], _, _ => none
  | (c, g) :: rest, norm, ms =>
    if sim norm c then some ((c, g ++ ms) :: rest)
    else (addToFirstSimilar sim rest norm ms).map (fun r => (c, g) :: r)

/-- One step of the second pass: a unique normalized name and its exact-match
members either join the first similar canonical group or start a new
canonical group keyed by the normalized name itself. -/
def pass2Step (sim : String → String → Bool) (acc : GroupMap)
    (entry : String × List String) : GroupMap :=
  match addToFirstSimilar sim acc entry.1 entry.2 with
  | some acc' => acc'
  | none => mapSet acc entry.1 entry.2

/-- Embedding of `localDeduplicateNames` from nameProcessing.ts, parametric in the
similarity threshold: exact grouping by normalized form followed by the
fuzzy second pass against established canonicals. -/
def localDeduplicateNamesT (t : ℚ) (names : List String) : GroupMap :=
  (buildExact names).foldl (pass2Step (areSimilarNamesT t)) []

/-- The function `localDeduplicateNames` at the configured threshold. -/
def localDeduplicateNames (names : List String) : GroupMap :=
  localDeduplicateNamesT NAME_SIMILARITY_THRESHOLD names

/-! ### Persistent deduplication (`deduplicateNames`) -/

/-- A persisted dedupe link, as in backend `DedupeLinkRecord`. -/
structure DedupeLink where
  canonical_normalized : String
  duplicate_normalized : String
  deriving Repr, DecidableEq

/-- The first phase of `deduplicateNames`: names whose normalized form has a
(truthy) canonical in the fetched store map are grouped directly under the
stored canonical; the rest are collected in order as `remaining`. -/
def splitByStore (storeMap : List (String × String)) :
    List String → GroupMap → GroupMap × List String
  | [], acc => (acc, [])
  | nm :: rest, acc =>
    let norm := normalizePayeeName nm
    match (storeMap.find? (fun p => p.1 = norm)).map (fun p => p.2) with
    | some canonical =>
      if canonical ≠ "" then splitByStore storeMap rest (mapPush acc canonical nm)
      else
        let (m, r) := splitByStore storeMap rest acc
        (m, nm :: r)
    | none =>
      let (m, r) := splitByStore storeMap rest acc
      (m, nm :: r)

/-- Merge the locally computed groups into the store-derived groups, pushing
each group's members under its canonical. -/
def mergeGroups (acc : GroupMap) (newGroups : GroupMap) : GroupMap :=
  newGroups.foldl (fun a p => mapPushAll a p.1 p.2) acc

/-- The dedupe links emitted for the newly formed local groups: one link per
member whose own normalized form differs from the group canonical. -/
def linksOf (newGroups : GroupMap) : List DedupeLink :=
  newGroups.flatMap (fun p =>
    p.2.filterMap (fun nm =>
      let dupNorm := normalizePayeeName nm
      if dupNorm ≠ p.1 then
        some { canonical_normalized := p.1, duplicate_normalized := dupNorm }
      else none))

/-- The pure grouping computation of `deduplicateNames`, given the map the
store returned for the batch fetch. -/
def dedupCore (storeMap : List (String × String)) (t : ℚ)
    (names : List String) : GroupMap :=
  let (m, remaining) := splitByStore storeMap names []
  mergeGroups m (localDeduplicateNamesT t remaining)

/-- Embedding of `deduplicateNames` from nameProcessing.ts with its two fallible
persistence calls made explicit: the batch fetch of existing links and the
batch upsert of new links.  An exception from either call propagates out of
the function, exactly as a rejected `await` does. -/
def deduplicateNamesE {ε : Type}
    (fetchDedupeMap : List String → Except ε (List (String × String)))
    (upsertDedupeLinks : List DedupeLink → Except ε Unit)
    (t : ℚ) (names : List String) : Except ε GroupMap := do
  let storeMap ← fetchDedupeMap (names.map normalizePayeeName)
  let (m, remaining) := splitByStore storeMap names []
  let newGroups := localDeduplicateNamesT t remaining
  let result := mergeGroups m newGroups
  let _ ← upsertDedupeLinks (linksOf newGroups)
  pure result

/-! ### Batch deduplication (batchDeduplication.ts) -/

/-- The classification verdict carried by a `PayeeClassification` (the
fields the deduplication engine reads or rewrites). -/
structure ClassificationResult where
  classification : String
  confidence : ℚ
  reasoning : String
  processingTier : String
  deriving Repr, DecidableEq

/-- A classification row: `{ id, payeeName, result, rowIndex, originalData? }`,
with the original spreadsheet row as an opaque payload `ρ`. -/
structure PayeeClassification (ρ : Type) where
  id : String
  payeeName : String
  result : ClassificationResult
  rowIndex : Nat
  originalData : Option ρ := none
  deriving Repr, DecidableEq

/-- An entry of the classification hand-off queue. -/
structure QueueEntry (ρ : Type) where
  name : String
  normalizedName : String
  originalIndex : Nat
  originalData : Option ρ := none
  deriving Repr, DecidableEq

/-- Model of `String.prototype.trim` on `String`. -/
def jsTrim (s : String) : String := ⟨trimWs s.data⟩

/-- Model of `Number.prototype.toFixed(1)` for the nonnegative percentages
interpolated into reasoning strings. -/
def toFixed1 (q : ℚ) : String :=
  let r : ℤ := round (q * 10)
  toString (r / 10) ++ "." ++ toString (r % 10)

/-- The mutable state of the `processPayeeDeduplication` loop. -/
structure DedupState (ρ : Type) where
  results : List (PayeeClassification ρ) := []
  processed : List String := []
  duplicateCache : List (String × PayeeClassification ρ) := []
  processQueue : List (QueueEntry ρ) := []
  normalizationCache : List (String × String) := []
  dedupeLinks : List DedupeLink := []

/-- Embedding of `findFuzzyMatch` from batchDeduplication.ts: scan the duplicate cache in
insertion order and return the first cached result whose key scores at least
the threshold against the normalized name, with the canonical key and the
similarity. -/
def findFuzzyMatch (normalizedName : String) (similarityThreshold : ℚ) :
    List (String × PayeeClassification ρ) →
    Option (PayeeClassification ρ × String × ℚ)
  | [] => none
  | (processedName, cachedResult) :: rest =>
    let similarity := combinedDefault normalizedName processedName
    if similarity ≥ similarityThreshold then
      some (cachedResult, processedName, similarity)
    else findFuzzyMatch normalizedName similarityThreshold rest

/-- The body of the `processPayeeDeduplication` loop for index `i`.  It
mirrors batchDeduplication.ts lines 52–109: skip blank names, look up or
compute the normalization, re-emit a cached exact duplicate, re-emit and
link a fuzzy duplicate, and otherwise queue the name for classification. -/
def dedupStep (useFuzzyMatching : Bool) (similarityThreshold : ℚ)
    (originalFileData : List ρ) (st : DedupState ρ) (i : Nat)
    (rawName : String) : DedupState ρ :=
  let name := jsTrim rawName
  if name = "" then st
  else
    let normalizedName :=
      match (st.normalizationCache.find? (fun p => p.1 = name)).map (fun p => p.2) with
      | some n => n
      | none => normalizePayeeName name
    let st : DedupState ρ := { st with
      normalizationCache :=
        if (st.normalizationCache.find? (fun p => p.1 = name)).isSome then
          st.normalizationCache
        else st.normalizationCache ++ [(name, normalizedName)] }
    let exactDup : Option (PayeeClassification ρ) :=
      if st.processed.contains normalizedName then
        (st.duplicateCache.find? (fun p => p.1 = normalizedName)).map (fun p => p.2)
      else none
    match exactDup with
    | some existingResult =>
      { st with results := st.results ++
          [{ existingResult with
              id := existingResult.id ++ "-dup-" ++ toString i,
              rowIndex := i,
              originalData := originalFileData[i]? }] }
    | none =>
      let fuzzy :=
        if useFuzzyMatching then
          findFuzzyMatch normalizedName similarityThreshold st.duplicateCache
        else none
      match fuzzy with
      | some (cached, canonicalNormalized, similarity) =>
        { st with
          results := st.results ++
            [{ cached with
                id := cached.id ++ "-fuzzy-" ++ toString i,
                payeeName := name,
                rowIndex := i,
                originalData := originalFileData[i]?,
                result := { cached.result with
                  reasoning := cached.result.reasoning ++
                    " (Fuzzy match with " ++ toFixed1 similarity ++ "% similarity)" } }],
          dedupeLinks := st.dedupeLinks ++
            [{ canonical_normalized := canonicalNormalized,
               duplicate_normalized := normalizedName }] }
      | none =>
        { st with
          processQueue := st.processQueue ++
            [{ name := name, normalizedName := normalizedName,
               originalIndex := i, originalData := originalFileData[i]? }],
          processed := st.processed ++ [normalizedName] }

/-- Run the loop of `processPayeeDeduplication` from index `i`. -/
def runDedup (useFuzzyMatching : Bool) (similarityThreshold : ℚ)
    (originalFileData : List ρ) : Nat → DedupState ρ → List String → DedupState ρ
  | _, st, [] => st
  | i, st, nm :: rest =>
    runDedup useFuzzyMatching similarityThreshold originalFileData (i + 1)
      (dedupStep useFuzzyMatching similarityThreshold originalFileData st i nm) rest

/-- Embedding of `processPayeeDeduplication` from batchDeduplication.ts (the variant that
also collects dedupe links for the final batch upsert; the returned state
carries `processQueue`, `results`, `duplicateCache` and `dedupeLinks`). -/
def processPayeeDeduplication (payeeNames : List String)
    (originalFileData : List ρ := []) (useFuzzyMatching : Bool := true)
    (similarityThreshold : ℚ := 90) : DedupState ρ :=
  runDedup useFuzzyMatching similarityThreshold originalFileData 0 {} payeeNames

/-! ### Result matching (batchExporter.ts) -/

/-- Embedding of `findResultByName` from batchExporter.ts: exact normalized match first
(preferring the preferred row index), then combined-similarity candidates at
or above the threshold sorted by descending similarity (again preferring the
preferred row index), and `null` when nothing qualifies.  Results with a
falsy (empty) `payeeName` are skipped in both phases. -/
def findResultByName (payeeName : String)
    (results : List (PayeeClassification ρ)) (preferredIndex : Option Nat)
    (similarityThreshold : ℚ := 80) : Option (PayeeClassification ρ) :=
  let normalizedTargetName := normalizePayeeName payeeName
  let exactMatches := results.filter (fun r =>
    r.payeeName ≠ "" && normalizePayeeName r.payeeName = normalizedTargetName)
  match exactMatches with
  | e :: es =>
    match preferredIndex with
    | some p =>
      match (e :: es).find? (fun r => r.rowIndex = p) with
      | some preferred => some preferred
      | none => some e
    | none => some e
  | [] =>
    let fuzzyCandidates :=
      stableSort (fun x y => x.2 ≥ y.2)
        (results.filterMap (fun r =>
          if r.payeeName = "" then none
          else
            let resultNorm := normalizePayeeName r.payeeName
            let similarity := combinedDefault resultNorm normalizedTargetName
            if similarity ≥ similarityThreshold then some (r, similarity)
            else none))
    match fuzzyCandidates with
    | c :: cs =>
      match preferredIndex with
      | some p =>
        match (c :: cs).find? (fun x => x.1.rowIndex = p) with
        | some preferred => some preferred.1
        | none => some c.1
      | none => some c.1
    | [] => none

/-- No two adjacent whitespace characters. -/
def noAdjWs : List Char → Bool
  | [] => true
  | [_] => true
  | a :: b :: r => !(isJsWs a && isJsWs b) && noAdjWs (b :: r)

/-- The first character, if any, is not whitespace. -/
def headNotWs : List Char → Bool
  | [] => true
  | c :: _ => !isJsWs c

/-- Does the scanner find a boundary-delimited occurrence of `w`? -/
def hasBoundedWord (w : List Char) : Bool → List Char → Bool
  | _, [] => false
  | prev, c :: rest =>
    (decide (w ≠ []) && !prev && decide ((c :: rest).take w.length = w) &&
      boundaryAfter ((c :: rest).drop w.length)) ||
    hasBoundedWord w (isWordChar c) rest

/-- All member names of a group map, across all groups. -/
def allMembers (m : GroupMap) : List String :=
  m.flatMap Prod.snd

/-- The member list stored under a canonical, or `[]` if absent. -/
def lookupMembers (m : GroupMap) (c : String) : List String :=
  (mapLookup m c).getD []

/-- The truthy store lookup consulted by `deduplicateNames` for one
normalized name. -/
def storeHit (storeMap : List (String × String)) (n : String) : Option String :=
  match (storeMap.find? (fun p => p.1 = n)).map (fun p => p.2) with
  | some c => if c ≠ "" then some c else none
  | none => none

/-- The exact-match pool of `findResultByName`: results with a non-empty
payee name whose normalized name equals the normalized target. -/
def exactMatchesOf (target : String) (results : List (PayeeClassification ρ)) :
    List (PayeeClassification ρ) :=
  results.filter (fun r =>
    r.payeeName ≠ "" && normalizePayeeName r.payeeName = normalizePayeeName target)

/-- The combined similarity of a result's normalized name against the
normalized target. -/
def simOf (target : String) (r : PayeeClassification ρ) : ℚ :=
  combinedDefault (normalizePayeeName r.payeeName) (normalizePayeeName target)

/-- The fuzzy candidate pool of `findResultByName`: results with a non-empty
payee name whose combined similarity clears the threshold. -/
def fuzzyPoolOf (target : String) (thr : ℚ)
    (results : List (PayeeClassification ρ)) : List (PayeeClassification ρ) :=
  results.filter (fun r => r.payeeName ≠ "" && simOf target r ≥ thr)

/-- A fixture verdict for concrete matcher scenarios. -/
def fixtureVerdict : ClassificationResult :=
  { classification := "Business", confidence := 1, reasoning := "",
    processingTier := "AI-Powered" }

/-- A classification row with an empty payee name. -/
def blankNameRow : PayeeClassification Unit :=
  { id := "r0", payeeName := "", result := fixtureVerdict, rowIndex := 0 }

/-- The two `"Acme"` rows of the exporter test scenario. -/
def acmeRow0 : PayeeClassification Unit :=
  { id := "1", payeeName := "Acme", result := fixtureVerdict, rowIndex := 0 }

def acmeRow1 : PayeeClassification Unit :=
  { id := "2", payeeName := "Acme", result := fixtureVerdict, rowIndex := 1 }

/-! ### Claim theorems -/

/-- Claim C1 (code bug evidence).  On `["Acme LLC", "Acme"]` — both of which
normalize to `"ACME"` — `processPayeeDeduplication` queues BOTH rows for
classification and emits no duplicate result: `duplicateCache` is never
populated anywhere in the function, so the exact-duplicate branch
(`duplicateCache.get(normalizedName)`) and the fuzzy branch (which iterates
`duplicateCache.entries()`) are dead code, contradicting the documented
contract that only one unique row proceeds to classification and later
occurrences are emitted as duplicates in `results`. -/
theorem claim_C1_dedup_never_fires :
    normalizePayeeName "Acme LLC" = "ACME" ∧
    normalizePayeeName "Acme" = "ACME" ∧
    (processPayeeDeduplication (ρ := Unit) ["Acme LLC", "Acme"]).processQueue.length = 2 ∧
    ((processPayeeDeduplication (ρ := Unit) ["Acme LLC", "Acme"]).processQueue.map
      (fun e => e.normalizedName)) = ["ACME", "ACME"] ∧
    (processPayeeDeduplication (ρ := Unit) ["Acme LLC", "Acme"]).results = [] ∧
    (processPayeeDeduplication (ρ := Unit) ["Acme LLC", "Acme"]).duplicateCache = [] := by
  decide

/-- Claim C3 (counterexample).  Normalization is not idempotent: the suffix
regex `/\b(LLC|INC|…)\b\.?$/` strips only the single trailing suffix token,
so `"Acme LLC Inc"` normalizes to `"ACME LLC"`, which renormalizes to
`"ACME"`. -/
theorem claim_C3_counterexample :
    normalizePayeeName "Acme LLC Inc" = "ACME LLC" ∧
    normalizePayeeName (normalizePayeeName "Acme LLC Inc") = "ACME" ∧
    normalizePayeeName (normalizePayeeName "Acme LLC Inc") ≠
      normalizePayeeName "Acme LLC Inc" := by
  decide

/-- Claim C9 (counterexample).  Normalization is not exception-free on
non-string input: the guard at nameProcessing.ts:13 checks only falsiness, so
a truthy non-string value such as the number 123 or the boolean `true`
reaches `name.toUpperCase()` and raises a TypeError, while falsy non-strings
(0, `null`/`undefined`) do fall back to the empty string as claimed. -/
theorem claim_C9_counterexample :
    normalizePayeeNameJs (.num 123) =
      .error "TypeError: name.toUpperCase is not a function" ∧
    normalizePayeeNameJs (.bool true) =
      .error "TypeError: name.toUpperCase is not a function" ∧
    normalizePayeeNameJs (.num 0) = .ok "" ∧
    normalizePayeeNameJs .nullish = .ok "" :=
  ⟨rfl, rfl, rfl, rfl⟩

/-- Claim C9 (amended).  Normalization never fails on string or falsy input:
`null`/`undefined`, the number 0, `false` and the empty string produce
`{ normalized: "", hash: hash("") }`, and every string produces the
best-effort normalization with its hash, for every hash function; but every
truthy non-string value raises a TypeError at `name.toUpperCase()`, so the
claim's non-string half holds only for falsy non-strings. -/
theorem claim_C9_normalize_strings_only (hashFn : String → String)
    (v : JsValue) (s : String) :
    normalizeNameJs hashFn .nullish = .ok { normalized := "", hash := hashFn "" } ∧
    normalizeNameJs hashFn (.str s) =
      .ok { normalized := normalizePayeeName s,
            hash := hashFn (normalizePayeeName s) } ∧
    (jsTruthy v = false →
      normalizeNameJs hashFn v = .ok { normalized := "", hash := hashFn "" }) ∧
    (jsTruthy v = true → (∀ t, v ≠ .str t) →
      normalizeNameJs hashFn v =
        .error "TypeError: name.toUpperCase is not a function") := by
  refine ⟨rfl, ?_, ?_, ?_⟩
  · by_cases hs : s = ""
    · subst hs
      simp [normalizeNameJs, normalizePayeeNameJs, jsTruthy, normalizePayeeName,
        Except.map]
    · simp [normalizeNameJs, normalizePayeeNameJs, jsTruthy, hs, Except.map]
  · intro h
    simp [normalizeNameJs, normalizePayeeNameJs, h, Except.map]
  · intro h hns
    match v with
    | .str t => exact absurd rfl (hns t)
    | .num q => simp [normalizeNameJs, normalizePayeeNameJs, h, Except.map]
    | .bool b => simp [normalizeNameJs, normalizePayeeNameJs, h, Except.map]
    | .nullish => simp [jsTruthy] at h

/-- Witness for claim C9: the amended theorem evaluated at `null`, at the
string "Acme LLC", at the falsy number 0 and at the truthy number 123. -/
theorem claim_C9_normalize_strings_only_witness :
    normalizeNameJs (fun s => s) .nullish = .ok { normalized := "", hash := "" } ∧
    normalizeNameJs (fun s => s) (.str "Acme LLC") =
      .ok { normalized := normalizePayeeName "Acme LLC",
            hash := normalizePayeeName "Acme LLC" } ∧
    normalizeNameJs (fun s => s) (.num 0) = .ok { normalized := "", hash := "" } ∧
    normalizeNameJs (fun s => s) (.num 123) =
      .error "TypeError: name.toUpperCase is not a function" :=
  ⟨(claim_C9_normalize_strings_only (fun s => s) .nullish "").1,
   (claim_C9_normalize_strings_only (fun s => s) .nullish "Acme LLC").2.1,
   (claim_C9_normalize_strings_only (fun s => s) (.num 0) "").2.2.1 (by decide),
   (claim_C9_normalize_strings_only (fun s => s) (.num 123) "").2.2.2 (by decide)
     (fun t h => by cases h)⟩

/-- Claim C5.  The function `calculateCombinedSimilarity` fails with an error whenever the
supplied weights do not sum to 1.0 within the floating tolerance — no silent
renormalization — and for every valid weight set it returns the four metric
scores together with their weighted sum. -/
theorem claim_C5_weights_law :
    (∀ (a b : String) (w : SimilarityWeights), weightsValid w = false →
      calculateCombinedSimilarity a b w = .error "Similarity weights must sum to 1.0") ∧
    (∀ (a b : String) (w : SimilarityWeights), weightsValid w = true →
      calculateCombinedSimilarity a b w = .ok
        { levenshtein := levenshteinSimilarity a b,
          jaroWinkler := jaroWinklerSimilarity a b,
          dice := diceCoefficient a b,
          tokenSort := tokenSortRatio a b,
          combined := levenshteinSimilarity a b * w.levenshtein +
            jaroWinklerSimilarity a b * w.jaroWinkler +
            diceCoefficient a b * w.dice +
            tokenSortRatio a b * w.tokenSort }) := by
  constructor
  · intro a b w h
    simp [calculateCombinedSimilarity, h]
  · intro a b w h
    simp [calculateCombinedSimilarity, h, scoreSet]

/-- Witness for claim C5: the weight set `{0.5, 0.5, 0.5, 0}` from the test
suite is rejected, and a pure-Levenshtein weight set is accepted with the
combined score equal to the weighted sum. -/
theorem claim_C5_weights_law_witness :
    calculateCombinedSimilarity "abc" "abc"
      { levenshtein := 1/2, jaroWinkler := 1/2, dice := 1/2, tokenSort := 0 } =
      .error "Similarity weights must sum to 1.0" ∧
    calculateCombinedSimilarity "abc" "abd"
      { levenshtein := 1, jaroWinkler := 0, dice := 0, tokenSort := 0 } = .ok
        { levenshtein := levenshteinSimilarity "abc" "abd",
          jaroWinkler := jaroWinklerSimilarity "abc" "abd",
          dice := diceCoefficient "abc" "abd",
          tokenSort := tokenSortRatio "abc" "abd",
          combined := levenshteinSimilarity "abc" "abd" * 1 +
            jaroWinklerSimilarity "abc" "abd" * 0 +
            diceCoefficient "abc" "abd" * 0 +
            tokenSortRatio "abc" "abd" * 0 } :=
  ⟨claim_C5_weights_law.1 "abc" "abc" _ (by decide),
   claim_C5_weights_law.2 "abc" "abd" _ (by decide)⟩

/-- Inserting preserves the multiset. -/
theorem insertOrdered_perm {α : Type} (le : α → α → Bool) (x : α) :
    ∀ l : List α, (insertOrdered le x l).Perm (x :: l) := by
  intro l
  induction l with
  | nil => exact List.Perm.refl _
  | cons y ys ih =>
    by_cases h : le y x = true
    · simp only [insertOrdered, if_pos h]
      exact (ih.cons y).trans (List.Perm.swap x y ys)
    · simp only [insertOrdered, if_neg h]
      exact List.Perm.refl _

/-- Stable sorting preserves the multiset. -/
theorem stableSort_perm {α : Type} (le : α → α → Bool) :
    ∀ (xs acc : List α),
    (xs.foldl (fun acc x => insertOrdered le x acc) acc).Perm (acc ++ xs) := by
  intro xs
  induction xs with
  | nil => intro acc; simp
  | cons x rest ih =>
    intro acc
    simp only [List.foldl_cons]
    refine (ih (insertOrdered le x acc)).trans ?_
    have h1 := (insertOrdered_perm le x acc).append_right rest
    refine h1.trans ?_
    exact List.perm_middle.symm

/-- Folding the Levenshtein row update against an empty second string turns a
singleton row `[k]` into `[k + length]`. -/
theorem levRow_nil (l : List Char) : ∀ k : Nat,
    l.foldl (levNextRow []) [k] = [k + l.length] := by
  induction l with
  | nil => intro k; simp
  | cons c cs ih =>
    intro k
    have hstep : levNextRow [] [k] c = [k + 1] := by
      simp [levNextRow, levAux]
    calc (c :: cs).foldl (levNextRow []) [k]
        = cs.foldl (levNextRow []) [k + 1] := by rw [List.foldl_cons, hstep]
      _ = [k + 1 + cs.length] := ih (k + 1)
      _ = [k + (c :: cs).length] := by simp; omega

/-- Levenshtein distance to the empty string is the length of the other
string (right argument empty). -/
theorem levDist_nil_right (a : List Char) : levDist a [] = a.length := by
  show (a.foldl (levNextRow []) [0]).getLastD 0 = a.length
  rw [levRow_nil]
  simp

/-- Levenshtein distance to the empty string is the length of the other
string (left argument empty). -/
theorem levDist_nil_left (b : List Char) : levDist [] b = b.length := by
  have : levDist [] b = (List.range (b.length + 1)).getLastD 0 := rfl
  rw [this, List.range_succ, List.getLastD_concat]

/-- A string other than the empty string has a non-zero length. -/
theorem length_pos_of_ne (b : String) (hb : b ≠ "") : b.length ≠ 0 := by
  intro h
  apply hb
  apply String.ext
  have : b.data.length = 0 := h
  simpa using List.eq_nil_of_length_eq_zero this

/-- Levenshtein similarity of the empty string against any non-empty string
is 0 (empty on the left). -/
theorem lev_empty_left (b : String) (hb : b ≠ "") :
    levenshteinSimilarity "" b = 0 := by
  have hn : b.length ≠ 0 := length_pos_of_ne b hb
  have hd : levDist (String.data "") b.data = b.length := by
    have : String.data "" = ([] : List Char) := rfl
    rw [this, levDist_nil_left]
    rfl
  have hm : max (String.length "") b.length = b.length := by
    have h0 : String.length "" = 0 := rfl
    rw [h0]
    exact max_eq_right (Nat.zero_le _)
  simp only [levenshteinSimilarity, hm, hd]
  rw [if_neg hn]
  have hq : (b.length : ℚ) ≠ 0 := by exact_mod_cast hn
  field_simp

/-- Levenshtein similarity of any non-empty string against the empty string
is 0 (empty on the right). -/
theorem lev_empty_right (b : String) (hb : b ≠ "") :
    levenshteinSimilarity b "" = 0 := by
  have hn : b.length ≠ 0 := length_pos_of_ne b hb
  have hd : levDist b.data (String.data "") = b.length := by
    have : String.data "" = ([] : List Char) := rfl
    rw [this, levDist_nil_right]
    rfl
  have hm : max b.length (String.length "") = b.length := by
    have h0 : String.length "" = 0 := rfl
    rw [h0]
    exact max_eq_left (Nat.zero_le _)
  simp only [levenshteinSimilarity, hm, hd]
  rw [if_neg hn]
  have hq : (b.length : ℚ) ≠ 0 := by exact_mod_cast hn
  field_simp

/-- Jaro-Winkler similarity of the empty string against any non-empty string
is 0 (empty on the left). -/
theorem jw_empty_left (b : String) (hb : b ≠ "") :
    jaroWinklerSimilarity "" b = 0 := by
  simp only [jaroWinklerSimilarity]
  rw [if_neg (Ne.symm hb)]
  simp

/-- Jaro-Winkler similarity of any non-empty string against the empty string
is 0 (empty on the right). -/
theorem jw_empty_right (b : String) (hb : b ≠ "") :
    jaroWinklerSimilarity b "" = 0 := by
  simp only [jaroWinklerSimilarity]
  rw [if_neg hb]
  simp

/-- Dice coefficient of the empty string against any non-empty string is 0
(empty on the left). -/
theorem dice_empty_left (b : String) (hb : b ≠ "") :
    diceCoefficient "" b = 0 := by
  simp only [diceCoefficient]
  rw [if_neg (Ne.symm hb)]
  have : (decide (String.length "" < 2) || decide (b.length < 2)) = true := rfl
  simp [this]

/-- Dice coefficient of any non-empty string against the empty string is 0
(empty on the right). -/
theorem dice_empty_right (b : String) (hb : b ≠ "") :
    diceCoefficient b "" = 0 := by
  simp only [diceCoefficient]
  rw [if_neg hb]
  have : (decide (b.length < 2) || decide (String.length "" < 2)) = true := by
    have h2 : decide (String.length "" < 2) = true := rfl
    rw [h2]
    exact Bool.or_true _
  simp [this]

/-- Every token produced by the token splitter is non-empty. -/
theorem splitTokensAux_mem_ne_nil (cs : List Char) :
    ∀ acc t : List Char, t ∈ splitTokensAux acc cs → t ≠ [] := by
  induction cs with
  | nil =>
    intro acc t ht
    by_cases ha : acc = []
    · simp [splitTokensAux, ha] at ht
    · simp [splitTokensAux, ha] at ht
      subst ht
      simpa using ha
  | cons c rest ih =>
    intro acc t ht
    by_cases hw : isJsWs c
    · by_cases ha : acc = []
      · simp [splitTokensAux, hw, ha] at ht
        exact ih [] t ht
      · simp [splitTokensAux, hw, ha] at ht
        rcases ht with h | h
        · subst h; simpa using ha
        · exact ih [] t h
    · simp [splitTokensAux, hw] at ht
      exact ih (c :: acc) t ht

/-- The token splitter returns a non-empty token list whenever the
accumulator is non-empty or some remaining character is not whitespace. -/
theorem splitTokensAux_ne_nil (cs : List Char) :
    ∀ acc : List Char, (acc ≠ [] ∨ ∃ c ∈ cs, isJsWs c = false) →
    splitTokensAux acc cs ≠ [] := by
  induction cs with
  | nil =>
    intro acc h
    rcases h with ha | ⟨c, hc, _⟩
    · simp [splitTokensAux, ha]
    · simp at hc
  | cons c rest ih =>
    intro acc h
    by_cases hw : isJsWs c
    · by_cases ha : acc = []
      · rcases h with h | ⟨c', hc', hcw⟩
        · exact absurd ha h
        · rcases List.mem_cons.mp hc' with rfl | hmem
          · rw [hw] at hcw; cases hcw
          · simp only [splitTokensAux, hw, if_pos rfl, ha, if_true]
            simpa [splitTokensAux, hw, ha] using
              ih [] (Or.inr ⟨c', hmem, hcw⟩)
      · simp [splitTokensAux, hw, ha]
    · simp only [splitTokensAux, hw]
      simpa [splitTokensAux, hw] using
        ih (c :: acc) (Or.inl (by simp))

/-- The token splitter returns no tokens on all-whitespace input. -/
theorem splitTokensAux_all_ws (cs : List Char)
    (h : ∀ c ∈ cs, isJsWs c = true) : splitTokensAux [] cs = [] := by
  induction cs with
  | nil => rfl
  | cons c rest ih =>
    have hw : isJsWs c = true := h c (List.mem_cons_self c rest)
    simp only [splitTokensAux, hw, if_pos rfl, if_true]
    exact ih (fun c' hc' => h c' (List.mem_cons_of_mem c hc'))

/-- The join loop of `String.intercalate` only extends its accumulator. -/
theorem intercalate_go_data (s : String) :
    ∀ (xs : List String) (acc : String), ∃ t : List Char,
    (String.intercalate.go acc s xs).data = acc.data ++ t := by
  intro xs
  induction xs with
  | nil => intro acc; exact ⟨[], by simp [String.intercalate.go]⟩
  | cons x rest ih =>
    intro acc
    obtain ⟨t, ht⟩ := ih (acc ++ s ++ x)
    refine ⟨s.data ++ x.data ++ t, ?_⟩
    rw [String.intercalate.go, ht]
    simp

/-- Joining a token list whose head is non-empty yields a non-empty
string. -/
theorem intercalate_head_ne (s x : String) (xs : List String)
    (hx : x ≠ "") : String.intercalate s (x :: xs) ≠ "" := by
  intro h
  obtain ⟨t, ht⟩ := intercalate_go_data s xs x
  have hdata : (String.intercalate s (x :: xs)).data = x.data ++ t := by
    rw [String.intercalate]
    exact ht
  rw [h] at hdata
  have : x.data = [] := by
    have hnil : ([] : List Char) = x.data ++ t := hdata
    rcases List.append_eq_nil.mp hnil.symm with ⟨h1, _⟩
    exact h1
  exact hx (String.ext this)

/-- The sorted-token join used by `tokenSortRatio`, extracted so that the
lemmas below can speak about it. -/
theorem tokenSortRatio_eq (a b : String) :
    tokenSortRatio a b =
      levenshteinSimilarity
        (String.intercalate " "
          (stableSort (fun x y => x ≤ y)
            ((splitTokens a.data).map (fun t => (⟨t⟩ : String)))))
        (String.intercalate " "
          (stableSort (fun x y => x ≤ y)
            ((splitTokens b.data).map (fun t => (⟨t⟩ : String))))) := rfl

/-- The sorted-token join of a string with some non-whitespace character is
a non-empty string. -/
theorem sortJoin_ne_empty (b : String)
    (hb : (b.data.any fun ch => !isJsWs ch) = true) :
    String.intercalate " "
      (stableSort (fun x y => x ≤ y)
        ((splitTokens b.data).map (fun t => (⟨t⟩ : String)))) ≠ "" := by
  obtain ⟨c, hc, hcw⟩ := List.any_eq_true.mp hb
  have hcw' : isJsWs c = false := by
    revert hcw
    cases isJsWs c <;> simp
  have htok : splitTokens b.data ≠ [] :=
    splitTokensAux_ne_nil b.data [] (Or.inr ⟨c, hc, hcw'⟩)
  set l := (splitTokens b.data).map (fun t => (⟨t⟩ : String)) with hl
  have hlne : l ≠ [] := by
    rw [hl]
    simpa using htok
  have hperm : (stableSort (fun x y : String => x ≤ y) l).Perm l := by
    simpa [stableSort] using stableSort_perm (fun x y : String => x ≤ y) l []
  have hsne : stableSort (fun x y : String => x ≤ y) l ≠ [] := by
    intro h
    exact hlne (List.Perm.nil_eq (h ▸ hperm)).symm
  rcases hs : stableSort (fun x y : String => x ≤ y) l with _ | ⟨x, xs⟩
  · exact absurd hs hsne
  · have hxl : x ∈ l := hperm.mem_iff.mp (hs ▸ List.mem_cons_self x xs)
    obtain ⟨t, htl, htx⟩ := List.mem_map.mp (hl ▸ hxl)
    have htne : t ≠ [] := splitTokensAux_mem_ne_nil b.data [] t htl
    have hxne : x ≠ "" := by
      rw [← htx]
      intro h
      exact htne (String.data_eq_of_eq h)
    exact intercalate_head_ne " " x xs hxne

/-- The sorted-token join of an all-whitespace string is the empty
string. -/
theorem sortJoin_ws (b : String) (hb : b.data.all isJsWs = true) :
    String.intercalate " "
      (stableSort (fun x y => x ≤ y)
        ((splitTokens b.data).map (fun t => (⟨t⟩ : String)))) = "" := by
  have htok : splitTokens b.data = [] :=
    splitTokensAux_all_ws b.data (List.all_eq_true.mp hb)
  rw [htok]
  rfl

/-- The sorted-token join of the empty string is the empty string. -/
theorem sortJoin_empty :
    String.intercalate " "
      (stableSort (fun x y => x ≤ y)
        ((splitTokens (String.data "")).map (fun t => (⟨t⟩ : String)))) = "" :=
  rfl

/-- Token-sort ratio of the empty string against a string with some
non-whitespace character is 0 (empty on the left). -/
theorem tokenSort_empty_left (b : String)
    (hb : (b.data.any fun ch => !isJsWs ch) = true) :
    tokenSortRatio "" b = 0 := by
  rw [tokenSortRatio_eq, sortJoin_empty]
  exact lev_empty_left _ (sortJoin_ne_empty b hb)

/-- Token-sort ratio of a string with some non-whitespace character against
the empty string is 0 (empty on the right). -/
theorem tokenSort_empty_right (b : String)
    (hb : (b.data.any fun ch => !isJsWs ch) = true) :
    tokenSortRatio b "" = 0 := by
  rw [tokenSortRatio_eq, sortJoin_empty]
  exact lev_empty_right _ (sortJoin_ne_empty b hb)

/-- Token-sort ratio of the empty string against an all-whitespace string is
100, in both argument orders: both sides tokenize to nothing. -/
theorem tokenSort_ws (b : String) (hb : b.data.all isJsWs = true) :
    tokenSortRatio "" b = 100 ∧ tokenSortRatio b "" = 100 := by
  rw [tokenSortRatio_eq, tokenSortRatio_eq, sortJoin_empty, sortJoin_ws b hb]
  exact ⟨rfl, rfl⟩

/-- The combined score under the default weights is the weighted sum of the
four metrics with weights 0.25 / 0.35 / 0.25 / 0.15. -/
theorem combined_eq (a b : String) :
    combinedDefault a b =
      levenshteinSimilarity a b * (1/4) + jaroWinklerSimilarity a b * (7/20) +
      diceCoefficient a b * (1/4) + tokenSortRatio a b * (3/20) := rfl

/-- A singleton string is non-empty. -/
theorem single_ne_empty (c : Char) : (⟨[c]⟩ : String) ≠ "" := by
  intro h
  exact absurd (String.data_eq_of_eq h) (by simp)

/-- Two singleton strings over distinct characters are distinct. -/
theorem single_ne_single (c d : Char) (hcd : c ≠ d) :
    (⟨[c]⟩ : String) ≠ ⟨[d]⟩ := by
  intro h
  exact hcd (by simpa using String.data_eq_of_eq h)

/-- Levenshtein similarity of two distinct singleton strings is 0: the edit
distance is 1 out of a maximum length of 1. -/
theorem lev_single (c d : Char) (hcd : c ≠ d) :
    levenshteinSimilarity ⟨[c]⟩ ⟨[d]⟩ = 0 := by
  have hd : levDist [c] [d] = 1 := by
    have h1 : levDist [c] [d] = (levNextRow [d] [0, 1] c).getLastD 0 := rfl
    rw [h1]
    simp [levNextRow, levAux, hcd, Nat.min_def]
  have hlen : max (String.length ⟨[c]⟩) (String.length ⟨[d]⟩) = 1 := by
    have h1 : String.length ⟨[c]⟩ = 1 := rfl
    have h2 : String.length ⟨[d]⟩ = 1 := rfl
    rw [h1, h2]
    exact max_self 1
  have hdata : levDist (String.data ⟨[c]⟩) (String.data ⟨[d]⟩) = 1 := hd
  simp only [levenshteinSimilarity, hlen, hdata]
  norm_num

/-- Jaro-Winkler similarity of two distinct singleton strings is 0: the
match window is empty, so the Jaro value and the common prefix are both 0. -/
theorem jw_single (c d : Char) (hcd : c ≠ d) :
    jaroWinklerSimilarity ⟨[c]⟩ ⟨[d]⟩ = 0 := by
  have hne := single_ne_single c d hcd
  have hfind : jaroFindMatch [d] [false] c 0 0 = none := by
    have hr : List.range' 0 (0 + 1 - 0) = [0] := rfl
    simp [jaroFindMatch, hr, Ne.symm hcd]
  have hmatch : jaroMatches [d] (max (List.length [c]) (List.length [d]) / 2 - 1)
      (([c] : List Char).enum) (List.replicate (List.length [d]) false) =
      ([], [false]) := by
    have hw0 : max (List.length [c]) (List.length [d]) / 2 - 1 = 0 := by
      have h1 : List.length [c] = 1 := rfl
      have h2 : List.length [d] = 1 := rfl
      rw [h1, h2, max_self]
    have he : (([c] : List Char)).enum = [(0, c)] := rfl
    have hrep : List.replicate (List.length [d]) false = [false] := rfl
    rw [hw0, he, hrep]
    simp [jaroMatches, hfind]
  have hjv : jaroValue [c] [d] = 0 := by
    simp only [jaroValue, hmatch]
    simp
  have hpl : commonPrefixLen [c] [d] = 0 := by
    simp [commonPrefixLen, hcd]
  have hda : String.data ⟨[c]⟩ = [c] := rfl
  have hdb : String.data ⟨[d]⟩ = [d] := rfl
  simp only [jaroWinklerSimilarity, hda, hdb]
  rw [if_neg hne,
    if_neg (by simp [single_ne_empty c, single_ne_empty d])]
  rw [hjv, hpl]
  norm_num

/-- Dice coefficient of two distinct singleton strings is 0: neither has a
bigram. -/
theorem dice_single (c d : Char) (hcd : c ≠ d) :
    diceCoefficient ⟨[c]⟩ ⟨[d]⟩ = 0 := by
  simp only [diceCoefficient]
  rw [if_neg (single_ne_single c d hcd)]
  have : (decide (String.length ⟨[c]⟩ < 2) ||
      decide (String.length ⟨[d]⟩ < 2)) = true := rfl
  simp [this]

/-- The sorted-token join of a singleton string is itself when the character
is not whitespace, and empty when it is. -/
theorem sortJoin_single (c : Char) :
    String.intercalate " "
      (stableSort (fun x y => x ≤ y)
        ((splitTokens (String.data ⟨[c]⟩)).map (fun t => (⟨t⟩ : String)))) =
      if isJsWs c then "" else ⟨[c]⟩ := by
  have hdata : String.data ⟨[c]⟩ = [c] := rfl
  rw [hdata]
  by_cases hw : isJsWs c
  · rw [if_pos hw]
    have : splitTokens [c] = [] := by simp [splitTokens, splitTokensAux, hw]
    rw [this]
    rfl
  · rw [if_neg hw]
    have : splitTokens [c] = [[c]] := by simp [splitTokens, splitTokensAux, hw]
    rw [this]
    simp [stableSort, insertOrdered, String.intercalate, String.intercalate.go]

/-- Token-sort ratio of two distinct singleton strings is 0 unless both
characters are whitespace. -/
theorem tokenSort_single (c d : Char) (hcd : c ≠ d)
    (hw : (isJsWs c && isJsWs d) = false) :
    tokenSortRatio ⟨[c]⟩ ⟨[d]⟩ = 0 := by
  rw [tokenSortRatio_eq, sortJoin_single c, sortJoin_single d]
  rcases hwc : isJsWs c with _ | _ <;> rcases hwd : isJsWs d with _ | _
  · simpa using lev_single c d hcd
  · simpa using lev_empty_right _ (single_ne_empty c)
  · simpa using lev_empty_left _ (single_ne_empty d)
  · rw [hwc, hwd] at hw
    simp at hw

/-- Claim C6 (counterexample).  The edge-case policy fails universally in two
ways: against the empty string, the whitespace-only string " " scores 100 on
the token-sort metric (both sides tokenize to nothing) and hence 15 on the
combined score, not 0; and the mismatched single-character whitespace pair
" " vs "\t" likewise scores token-sort 100 and combined 15, not 0. -/
theorem claim_C6_counterexample :
    (" " : String) ≠ "" ∧
    tokenSortRatio " " "" = 100 ∧
    combinedDefault " " "" = 15 ∧
    (" " : String) ≠ "\t" ∧
    (" " : String).length = 1 ∧ ("\t" : String).length = 1 ∧
    tokenSortRatio " " "\t" = 100 ∧
    combinedDefault " " "\t" = 15 := by
  decide

/-- Claim C6 (amended).  The edge-case policy, universally: two empty strings
score 100 on every metric and on the combined score; against any non-empty
string, the empty string scores 0 on Levenshtein, Jaro-Winkler and Dice (in
both argument orders), and also 0 on token-sort and combined when the
non-empty string contains a non-whitespace character — but 100 on token-sort
and 15 on combined when it is whitespace-only; any two distinct
single-character strings score 0 on Levenshtein, Jaro-Winkler and Dice, and
also 0 on token-sort and combined unless both characters are whitespace. -/
theorem claim_C6_edge_policy (b : String) (c d : Char) :
    (levenshteinSimilarity "" "" = 100 ∧ jaroWinklerSimilarity "" "" = 100 ∧
      diceCoefficient "" "" = 100 ∧ tokenSortRatio "" "" = 100 ∧
      combinedDefault "" "" = 100) ∧
    (b ≠ "" →
      levenshteinSimilarity "" b = 0 ∧ levenshteinSimilarity b "" = 0 ∧
      jaroWinklerSimilarity "" b = 0 ∧ jaroWinklerSimilarity b "" = 0 ∧
      diceCoefficient "" b = 0 ∧ diceCoefficient b "" = 0) ∧
    (b ≠ "" → (b.data.any fun ch => !isJsWs ch) = true →
      tokenSortRatio "" b = 0 ∧ tokenSortRatio b "" = 0 ∧
      combinedDefault "" b = 0 ∧ combinedDefault b "" = 0) ∧
    (b ≠ "" → b.data.all isJsWs = true →
      tokenSortRatio "" b = 100 ∧ tokenSortRatio b "" = 100 ∧
      combinedDefault "" b = 15 ∧ combinedDefault b "" = 15) ∧
    (c ≠ d →
      levenshteinSimilarity ⟨[c]⟩ ⟨[d]⟩ = 0 ∧
      jaroWinklerSimilarity ⟨[c]⟩ ⟨[d]⟩ = 0 ∧
      diceCoefficient ⟨[c]⟩ ⟨[d]⟩ = 0) ∧
    (c ≠ d → (isJsWs c && isJsWs d) = false →
      tokenSortRatio ⟨[c]⟩ ⟨[d]⟩ = 0 ∧
      combinedDefault ⟨[c]⟩ ⟨[d]⟩ = 0) := by
  refine ⟨by decide, ?_, ?_, ?_, ?_, ?_⟩
  · intro hb
    exact ⟨lev_empty_left b hb, lev_empty_right b hb,
      jw_empty_left b hb, jw_empty_right b hb,
      dice_empty_left b hb, dice_empty_right b hb⟩
  · intro hb hany
    refine ⟨tokenSort_empty_left b hany, tokenSort_empty_right b hany, ?_, ?_⟩
    · rw [combined_eq, lev_empty_left b hb, jw_empty_left b hb,
        dice_empty_left b hb, tokenSort_empty_left b hany]
      norm_num
    · rw [combined_eq, lev_empty_right b hb, jw_empty_right b hb,
        dice_empty_right b hb, tokenSort_empty_right b hany]
      norm_num
  · intro hb hws
    obtain ⟨h1, h2⟩ := tokenSort_ws b hws
    refine ⟨h1, h2, ?_, ?_⟩
    · rw [combined_eq, lev_empty_left b hb, jw_empty_left b hb,
        dice_empty_left b hb, h1]
      norm_num
    · rw [combined_eq, lev_empty_right b hb, jw_empty_right b hb,
        dice_empty_right b hb, h2]
      norm_num
  · intro hcd
    exact ⟨lev_single c d hcd, jw_single c d hcd, dice_single c d hcd⟩
  · intro hcd hw
    refine ⟨tokenSort_single c d hcd hw, ?_⟩
    rw [combined_eq, lev_single c d hcd, jw_single c d hcd,
      dice_single c d hcd, tokenSort_single c d hcd hw]
    norm_num

/-- Witness for claim C6: the amended policy evaluated at the test suite's
own instances — the empty pair, "abc" against the empty string, the
whitespace-only string " " against the empty string, and the mismatched
single-character pair "A"/"B". -/
theorem claim_C6_edge_policy_witness :
    levenshteinSimilarity "" "" = 100 ∧
    levenshteinSimilarity "" "abc" = 0 ∧
    tokenSortRatio "" "abc" = 0 ∧
    combinedDefault "" "abc" = 0 ∧
    tokenSortRatio "" " " = 100 ∧
    combinedDefault "" " " = 15 ∧
    jaroWinklerSimilarity ⟨['A']⟩ ⟨['B']⟩ = 0 ∧
    combinedDefault ⟨['A']⟩ ⟨['B']⟩ = 0 :=
  ⟨(claim_C6_edge_policy "x" 'a' 'b').1.1,
   ((claim_C6_edge_policy "abc" 'a' 'b').2.1 (by decide)).1,
   ((claim_C6_edge_policy "abc" 'a' 'b').2.2.1 (by decide) (by decide)).1,
   ((claim_C6_edge_policy "abc" 'a' 'b').2.2.1 (by decide) (by decide)).2.2.1,
   ((claim_C6_edge_policy " " 'a' 'b').2.2.2.1 (by decide) (by decide)).1,
   ((claim_C6_edge_policy " " 'a' 'b').2.2.2.1 (by decide) (by decide)).2.2.1,
   ((claim_C6_edge_policy "x" 'A' 'B').2.2.2.2.1 (by decide)).2.1,
   ((claim_C6_edge_policy "x" 'A' 'B').2.2.2.2.2 (by decide) (by decide)).2⟩

/-- Claim C2 (counterexample).  The local-grouping second pass does not use
`calculateCombinedSimilarity` at threshold 90: `areSimilarNames` compares
Jaro-Winkler similarity against `NAME_SIMILARITY_THRESHOLD = 85`.  For
`"XAAAAB"`/`"YAAAAB"` the Jaro-Winkler score is 800/9 ≈ 88.9 — at least 85
but below 90 — while the combined score is 730/9 ≈ 81.1, below 90; the code
nevertheless merges the two names into one group, which the claim's
combined-≥-90 rule forbids. -/
theorem claim_C2_counterexample :
    jaroWinklerSimilarity "XAAAAB" "YAAAAB" ≥ 85 ∧
    jaroWinklerSimilarity "XAAAAB" "YAAAAB" < 90 ∧
    combinedDefault "XAAAAB" "YAAAAB" < 90 ∧
    localDeduplicateNames ["XAAAAB", "YAAAAB"] =
      [("XAAAAB", ["XAAAAB", "YAAAAB"])] := by
  decide

/-- Claim C8 (counterexample).  When the final batch upsert fails, the promise
returned by `deduplicateNames` rejects with the persistence error and the
already-computed local grouping — which is non-empty here — is discarded
rather than returned: the engine does not degrade to the pure local-grouping
path. -/
theorem claim_C8_counterexample :
    deduplicateNamesE (fun _ => Except.ok []) (fun _ => Except.error "boom")
      NAME_SIMILARITY_THRESHOLD ["Acme Systems", "Acme System"] =
      Except.error "boom" ∧
    localDeduplicateNames ["Acme Systems", "Acme System"] =
      [("ACME SYSTEMS", ["Acme Systems", "Acme System"])] := by
  constructor
  · rfl
  · decide

/-- Claim C8 (amended).  Persistence failures in `deduplicateNames` propagate
to the caller as the rejection of the returned promise: a batch-fetch
failure aborts before any grouping, an upsert failure aborts after the
grouping was computed and discards it, and only when both persistence calls
succeed is the grouping (`dedupCore`) returned. -/
theorem claim_C8_failure_propagation {ε : Type}
    (fetch : List String → Except ε (List (String × String)))
    (upsert : List DedupeLink → Except ε Unit) (t : ℚ) (names : List String) :
    (∀ e : ε, fetch (names.map normalizePayeeName) = .error e →
      deduplicateNamesE fetch upsert t names = .error e) ∧
    (∀ (m : List (String × String)) (e : ε),
      fetch (names.map normalizePayeeName) = .ok m →
      upsert (linksOf (localDeduplicateNamesT t (splitByStore m names []).2)) = .error e →
      deduplicateNamesE fetch upsert t names = .error e) ∧
    (∀ m : List (String × String),
      fetch (names.map normalizePayeeName) = .ok m →
      upsert (linksOf (localDeduplicateNamesT t (splitByStore m names []).2)) = .ok () →
      deduplicateNamesE fetch upsert t names = .ok (dedupCore m t names)) := by
  refine ⟨fun e he => ?_, fun m e hm hu => ?_, fun m hm hu => ?_⟩
  · simp [deduplicateNamesE, he, Except.instMonad, Except.bind, Except.map]
  · rcases hsplit : splitByStore m names [] with ⟨g, rem⟩
    rw [hsplit] at hu
    simp [deduplicateNamesE, hm, hsplit, hu, Except.instMonad, Except.bind, Except.map]
  · rcases hsplit : splitByStore m names [] with ⟨g, rem⟩
    rw [hsplit] at hu
    simp [deduplicateNamesE, dedupCore, hm, hsplit, hu, Except.instMonad, Except.bind,
      Except.map, Except.pure]

/-- Witness for claim C8: a store whose upsert always fails makes
`deduplicateNames` reject with that failure. -/
theorem claim_C8_failure_propagation_witness :
    deduplicateNamesE (fun _ => Except.ok []) (fun _ => Except.error "down")
      NAME_SIMILARITY_THRESHOLD ["Acme"] = Except.error "down" :=
  (claim_C8_failure_propagation (fun _ => Except.ok [])
    (fun _ => Except.error "down") NAME_SIMILARITY_THRESHOLD ["Acme"]).2.1
    [] "down" rfl rfl

/-- The relation `areSimilarNamesT` accepts a name against itself (the normalized forms
coincide). -/
theorem areSimilarNamesT_refl (t : ℚ) (n : String) :
    areSimilarNamesT t n n = true := by
  simp [areSimilarNamesT]

/-- When no established canonical is similar, the group scan returns
nothing. -/
theorem addToFirstSimilar_none (sim : String → String → Bool)
    (acc : GroupMap) (norm : String) (ms : List String)
    (h : ∀ p ∈ acc, sim norm p.1 = false) :
    addToFirstSimilar sim acc norm ms = none := by
  induction acc with
  | nil => rfl
  | cons p rest ih =>
    obtain ⟨c, g⟩ := p
    have hc : sim norm c = false := h (c, g) (List.mem_cons_self _ _)
    simp [addToFirstSimilar, hc, ih (fun q hq => h q (List.mem_cons_of_mem _ hq))]

/-- The group scan joins exactly the first similar canonical, leaving every
other group untouched. -/
theorem addToFirstSimilar_first (sim : String → String → Bool)
    (l r : GroupMap) (c : String) (g : List String) (norm : String)
    (ms : List String) (hl : ∀ p ∈ l, sim norm p.1 = false)
    (hc : sim norm c = true) :
    addToFirstSimilar sim (l ++ (c, g) :: r) norm ms =
      some (l ++ (c, g ++ ms) :: r) := by
  induction l with
  | nil => simp [addToFirstSimilar, hc]
  | cons p rest ih =>
    obtain ⟨c', g'⟩ := p
    have hc' : sim norm c' = false := hl (c', g') (List.mem_cons_self _ _)
    simp [addToFirstSimilar, hc',
      ih (fun q hq => hl q (List.mem_cons_of_mem _ hq))]

/-- Model of `Map.set` with a fresh key appends the entry in insertion order. -/
theorem mapSet_fresh (m : GroupMap) (k : String) (vs : List String)
    (h : ∀ p ∈ m, p.1 ≠ k) : mapSet m k vs = m ++ [(k, vs)] := by
  induction m with
  | nil => rfl
  | cons p rest ih =>
    obtain ⟨c, g⟩ := p
    have hc : c ≠ k := h (c, g) (List.mem_cons_self _ _)
    simp [mapSet, hc, ih (fun q hq => h q (List.mem_cons_of_mem _ hq))]

/-- Claim C2 (amended).  In the local-grouping second pass, each unique
normalized name is compared via `areSimilarNames` — exact equality of
(re)normalized forms, else Jaro-Winkler similarity at least
`NAME_SIMILARITY_THRESHOLD = 85` — against the established canonicals in
insertion order; it joins the first group whose canonical is similar, and
otherwise starts a new canonical group keyed by itself, at the end of the
map. -/
theorem claim_C2_local_grouping_rule (t : ℚ) :
    (∀ n1 n2 : String, areSimilarNamesT t n1 n2 = true ↔
      (normalizePayeeName n1 = normalizePayeeName n2 ∨
        jaroWinklerSimilarity (normalizePayeeName n1) (normalizePayeeName n2) ≥ t)) ∧
    (∀ (l r : GroupMap) (c : String) (g : List String) (norm : String)
      (ms : List String),
      (∀ p ∈ l, areSimilarNamesT t norm p.1 = false) →
      areSimilarNamesT t norm c = true →
      pass2Step (areSimilarNamesT t) (l ++ (c, g) :: r) (norm, ms) =
        l ++ (c, g ++ ms) :: r) ∧
    (∀ (acc : GroupMap) (norm : String) (ms : List String),
      (∀ p ∈ acc, areSimilarNamesT t norm p.1 = false) →
      pass2Step (areSimilarNamesT t) acc (norm, ms) = acc ++ [(norm, ms)]) ∧
    (∀ names : List String, localDeduplicateNamesT t names =
      (buildExact names).foldl (pass2Step (areSimilarNamesT t)) []) ∧
    NAME_SIMILARITY_THRESHOLD = 85 := by
  refine ⟨fun n1 n2 => ?_, fun l r c g norm ms hl hc => ?_,
    fun acc norm ms h => ?_, fun names => rfl, rfl⟩
  · by_cases h : normalizePayeeName n1 = normalizePayeeName n2 <;>
      simp [areSimilarNamesT, h]
  · simp [pass2Step, addToFirstSimilar_first _ l r c g norm ms hl hc]
  · have hfresh : ∀ p ∈ acc, p.1 ≠ norm := by
      intro p hp hkey
      have := h p hp
      rw [hkey] at this
      rw [areSimilarNamesT_refl] at this
      exact absurd this (by simp)
    simp [pass2Step, addToFirstSimilar_none _ acc norm ms h,
      mapSet_fresh acc norm ms hfresh]

/-- Witness for claim C2: `"ACME SYSTEM"` joins the established canonical
`"ACME SYSTEMS"` (its first similar group), and the dissimilar `"BOB"`
starts a new group at the end. -/
theorem claim_C2_local_grouping_rule_witness :
    pass2Step (areSimilarNamesT 85) [("ACME SYSTEMS", ["Acme Systems"])]
      ("ACME SYSTEM", ["Acme System"]) =
      [("ACME SYSTEMS", ["Acme Systems", "Acme System"])] ∧
    pass2Step (areSimilarNamesT 85) [("ACME SYSTEMS", ["Acme Systems"])]
      ("BOB", ["Bob"]) =
      [("ACME SYSTEMS", ["Acme Systems"]), ("BOB", ["Bob"])] :=
  ⟨(claim_C2_local_grouping_rule 85).2.1 [] [] "ACME SYSTEMS" ["Acme Systems"]
      "ACME SYSTEM" ["Acme System"] (by simp) (by rfl),
   (claim_C2_local_grouping_rule 85).2.2.1 [("ACME SYSTEMS", ["Acme Systems"])]
      "BOB" ["Bob"] (by decide)⟩

/-! ### Conditional idempotence of normalization -/

/-- A map whose function fixes every element of the list is the identity. -/
theorem map_id_of_fixes {α : Type} (f : α → α) (l : List α)
    (h : ∀ c ∈ l, f c = c) : l.map f = l := by
  induction l with
  | nil => rfl
  | cons c rest ih =>
    simp only [List.map_cons, h c (List.mem_cons_self _ _),
      ih (fun d hd => h d (List.mem_cons_of_mem _ hd))]

/-- A flat map that sends every element to its singleton is the identity. -/
theorem flatMap_id_of_singleton {α : Type} (f : α → List α) (l : List α)
    (h : ∀ c ∈ l, f c = [c]) : l.flatMap f = l := by
  induction l with
  | nil => rfl
  | cons c rest ih =>
    simp only [List.flatMap_cons, h c (List.mem_cons_self _ _),
      ih (fun d hd => h d (List.mem_cons_of_mem _ hd))]
    rfl

/-- Collapsing whitespace runs is the identity on a list whose whitespace is
single spaces with no adjacent pair; when the previous character was
whitespace the head must not be whitespace. -/
theorem collapseWsAux_id (cs : List Char)
    (hsp : ∀ c ∈ cs, isJsWs c = true → c = ' ')
    (hadj : noAdjWs cs = true) :
    ∀ b : Bool, (b = true → headNotWs cs = true) → collapseWsAux b cs = cs := by
  induction cs with
  | nil => intro b _; rfl
  | cons c rest ih =>
    intro b hb
    by_cases hc : isJsWs c = true
    · have hb' : b = false := by
        cases b with
        | false => rfl
        | true =>
          have := hb rfl
          simp [headNotWs, hc] at this
      subst hb'
      have hcsp : c = ' ' := hsp c (List.mem_cons_self _ _) hc
      have hrest : collapseWsAux true rest = rest := by
        apply ih
        · exact fun d hd => hsp d (List.mem_cons_of_mem _ hd)
        · cases rest with
          | nil => rfl
          | cons d r => simp [noAdjWs] at hadj ⊢; exact hadj.2
        · intro _
          cases rest with
          | nil => rfl
          | cons d r =>
            simp [noAdjWs, hc] at hadj
            simp [headNotWs, hadj.1]
      simp [collapseWsAux, isJsWs, hcsp, hrest]
    · have hrest : collapseWsAux false rest = rest := by
        apply ih
        · exact fun d hd => hsp d (List.mem_cons_of_mem _ hd)
        · cases rest with
          | nil => rfl
          | cons d r => simp [noAdjWs] at hadj ⊢; exact hadj.2
        · intro h; cases h
      simp [collapseWsAux, hc, hrest]

/-- Dropping leading whitespace is the identity when the head is not
whitespace. -/
theorem dropWhile_ws_id (l : List Char) (h : headNotWs l = true) :
    l.dropWhile isJsWs = l := by
  cases l with
  | nil => rfl
  | cons c rest =>
    simp [headNotWs] at h
    simp [List.dropWhile_cons, h]

/-- Trimming is the identity on a list with non-whitespace ends. -/
theorem trimWs_id (cs : List Char) (h1 : headNotWs cs = true)
    (h2 : headNotWs cs.reverse = true) : trimWs cs = cs := by
  unfold trimWs
  rw [dropWhile_ws_id cs h1, dropWhile_ws_id cs.reverse h2, List.reverse_reverse]

/-- The fuelled word scanner is the identity when no boundary-delimited
occurrence exists and the fuel dominates the input length. -/
theorem removeWordFuel_id (w : List Char) :
    ∀ (cs : List Char) (prev : Bool) (fuel : Nat), cs.length ≤ fuel →
    hasBoundedWord w prev cs = false → removeWordFuel w fuel prev cs = cs := by
  intro cs
  induction cs with
  | nil =>
    intro prev fuel _ _
    cases fuel <;> rfl
  | cons c rest ih =>
    intro prev fuel hfuel hno
    cases fuel with
    | zero => simp at hfuel
    | succ f =>
      simp only [hasBoundedWord, Bool.or_eq_false_iff] at hno
      obtain ⟨hno1, hno2⟩ := hno
      have hcond : ¬(w ≠ [] ∧ prev = false ∧ (c :: rest).take w.length = w ∧
          boundaryAfter ((c :: rest).drop w.length) = true) := by
        intro ⟨hw, hprev, htake, hba⟩
        subst hprev
        simp [hw, htake, hba] at hno1
      rw [removeWordFuel]
      rw [if_neg ?_]
      · have : rest.length ≤ f := by
          simp only [List.length_cons] at hfuel
          omega
        rw [ih (isWordChar c) f this hno2]
      · intro ⟨hw, hprev, htake, hba⟩
        exact hcond ⟨hw, hprev, htake, hba⟩

/-- The function `removeWord` is the identity when the scanner finds no occurrence. -/
theorem removeWord_id (w : List Char) (cs : List Char)
    (h : hasBoundedWord w false cs = false) : removeWord w false cs = cs :=
  removeWordFuel_id w cs false cs.length (Nat.le_refl _) h

/-- Claim C3 (amended).  Renormalizing is the identity whenever the normalized
form retains no strippable artifact: every character is fixed by the
uppercase and NFD models and is neither a combining mark nor in the
punctuation class, whitespace is single interior spaces (no doubles, no
leading or trailing), no trailing legal-suffix token remains, and no
boundary-delimited corporate word (CORPORATION / INCORPORATED / LIMITED /
COMPANY) occurs.  The unconditional idempotence stated by the spec fails
(see the counterexample): a second suffix token or a removed interior word
survives one pass and changes under the next. -/
theorem claim_C3_conditional_idempotence (s : String)
    (h1 : (normalizePayeeName s).data.all (fun c => jsUpChar c = c) = true)
    (h2 : (normalizePayeeName s).data.all
      (fun c => decide (nfdChar c = [c]) && !isCombiningMark c) = true)
    (h3 : (normalizePayeeName s).data.all
      (fun c => !(decide (c ∈ punctChars))) = true)
    (h4 : (normalizePayeeName s).data.all
      (fun c => !isJsWs c || c = ' ') = true)
    (h5 : noAdjWs (normalizePayeeName s).data = true)
    (h6 : headNotWs (normalizePayeeName s).data = true)
    (h7 : headNotWs (normalizePayeeName s).data.reverse = true)
    (h8 : findSuffixStart false (normalizePayeeName s).data = none)
    (h9 : ∀ w ∈ corpWords,
      hasBoundedWord w false (normalizePayeeName s).data = false) :
    normalizePayeeName (normalizePayeeName s) = normalizePayeeName s := by
  by_cases hempty : normalizePayeeName s = ""
  · rw [hempty]; rfl
  · set t := normalizePayeeName s with ht
    rw [List.all_eq_true] at h1 h2 h3 h4
    have s1 : t.data.map jsUpChar = t.data :=
      map_id_of_fixes _ _ (fun c hc => by simpa using h1 c hc)
    have s2a : (t.data.flatMap nfdChar) = t.data :=
      flatMap_id_of_singleton _ _ (fun c hc => by
        have := h2 c hc
        simp at this
        exact this.1)
    have s2b : t.data.filter (fun c => !isCombiningMark c) = t.data := by
      rw [List.filter_eq_self]
      intro c hc
      have := h2 c hc
      simp at this
      simp [this.2]
    have s3 : t.data.map (fun c => if c ∈ punctChars then ' ' else c) = t.data :=
      map_id_of_fixes _ _ (fun c hc => by
        have := h3 c hc
        simp at this
        simp [this])
    have s4a : collapseWs t.data = t.data := by
      apply collapseWsAux_id t.data _ h5 false
      · intro h; cases h
      · intro c hc hwc
        have := h4 c hc
        simp [hwc] at this
        exact this
    have s4b : trimWs t.data = t.data := trimWs_id t.data h6 h7
    have s5 : stripLegalSuffix t.data = t.data := by
      simp [stripLegalSuffix, h8]
    have s6 : corpWords.foldl (fun acc w => removeWord w false acc) t.data =
        t.data := by
      have hw1 := removeWord_id _ _
        (h9 ['C','O','R','P','O','R','A','T','I','O','N'] (by simp [corpWords]))
      have hw2 := removeWord_id _ _
        (h9 ['I','N','C','O','R','P','O','R','A','T','E','D'] (by simp [corpWords]))
      have hw3 := removeWord_id _ _
        (h9 ['L','I','M','I','T','E','D'] (by simp [corpWords]))
      have hw4 := removeWord_id _ _
        (h9 ['C','O','M','P','A','N','Y'] (by simp [corpWords]))
      simp only [corpWords, List.foldl_cons, List.foldl_nil]
      rw [hw1, hw2, hw3, hw4]
    have hchars : normalizeChars t.data = t.data := by
      unfold normalizeChars
      rw [s1, s2a, s2b, s3, s4a, s4b, s5, s6, s4b]
    show normalizePayeeName t = t
    unfold normalizePayeeName
    rw [if_neg hempty, hchars]

/-- Witness for claim C3: `"ACME SYSTEMS"`, the normalization of
`"Acme Systems"`, is a fixpoint of normalization. -/
theorem claim_C3_conditional_idempotence_witness :
    normalizePayeeName (normalizePayeeName "Acme Systems") =
      normalizePayeeName "Acme Systems" :=
  claim_C3_conditional_idempotence "Acme Systems" (by decide) (by decide)
    (by decide) (by decide) (by decide) (by decide) (by decide) (by decide)
    (by decide)

/-! ### Shape of the batch-deduplication loop -/

/-- One loop step never touches the duplicate cache, appends at most one
queue entry — carrying the trimmed name, the loop index and the aligned
original row — and appends at most one result, carrying the loop index as
its row index; blank names change nothing. -/
theorem dedupStep_shape {ρ : Type} (u : Bool) (t : ℚ) (data : List ρ)
    (st : DedupState ρ) (i : Nat) (nm : String) :
    (dedupStep u t data st i nm).duplicateCache = st.duplicateCache ∧
    ((dedupStep u t data st i nm).processQueue = st.processQueue ∨
      (jsTrim nm ≠ "" ∧ ∃ n, (dedupStep u t data st i nm).processQueue =
        st.processQueue ++ [⟨jsTrim nm, n, i, data[i]?⟩])) ∧
    ((dedupStep u t data st i nm).results = st.results ∨
      (jsTrim nm ≠ "" ∧ ∃ r, (dedupStep u t data st i nm).results =
        st.results ++ [r] ∧ r.rowIndex = i)) := by
  unfold dedupStep
  by_cases hname : jsTrim nm = ""
  · simp [hname]
  · simp only [if_neg hname]
    split
    · simp [hname]
    · split
      · simp [hname]
      · simp [hname]

/-- Invariant of the batch loop: every queue entry and every result either
predates the loop or originates from a position of the processed list, with
index, trimmed name and non-blankness as recorded by `dedupStep`. -/
theorem runDedup_shape {ρ : Type} (u : Bool) (t : ℚ) (data : List ρ) :
    ∀ (l : List String) (i : Nat) (st : DedupState ρ),
    (∀ e ∈ (runDedup u t data i st l).processQueue,
      e ∈ st.processQueue ∨ ∃ j, j < l.length ∧ e.originalIndex = i + j ∧
        e.name = jsTrim (l.getD j "") ∧ e.name ≠ "") ∧
    (∀ r ∈ (runDedup u t data i st l).results,
      r ∈ st.results ∨ ∃ j, j < l.length ∧ r.rowIndex = i + j ∧
        jsTrim (l.getD j "") ≠ "") := by
  intro l
  induction l with
  | nil =>
    intro i st
    exact ⟨fun e he => Or.inl he, fun r hr => Or.inl hr⟩
  | cons nm rest ih =>
    intro i st
    obtain ⟨hq, hr⟩ := ih (i + 1) (dedupStep u t data st i nm)
    obtain ⟨-, hsq, hsr⟩ := dedupStep_shape u t data st i nm
    constructor
    · intro e he
      rcases hq e he with hin | ⟨j, hj, hidx, hnm, hne⟩
      · rcases hsq with hsame | ⟨hblank, n, happ⟩
        · rw [hsame] at hin
          exact Or.inl hin
        · rw [happ] at hin
          rcases List.mem_append.1 hin with hold | hnew
          · exact Or.inl hold
          · rcases List.mem_singleton.1 hnew with rfl
            exact Or.inr ⟨0, by simp, by simp, by simp, hblank⟩
      · refine Or.inr ⟨j + 1, by simp; omega, by omega, ?_, hne⟩
        simpa using hnm
    · intro r hrr
      rcases hr r hrr with hin | ⟨j, hj, hidx, hne⟩
      · rcases hsr with hsame | ⟨hblank, r', happ, hrow⟩
        · rw [hsame] at hin
          exact Or.inl hin
        · rw [happ] at hin
          rcases List.mem_append.1 hin with hold | hnew
          · exact Or.inl hold
          · rcases List.mem_singleton.1 hnew with rfl
            exact Or.inr ⟨0, by simp, by simpa using hrow, by simpa using hblank⟩
      · refine Or.inr ⟨j + 1, by simp; omega, by omega, ?_⟩
        simpa using hne

/-- Claim C10.  The function `processPayeeDeduplication` skips entries that are empty or
whitespace-only after trimming — such positions contribute no queue entry
and no result — and every queue entry carries the whitespace-trimmed form of
the input name at its `originalIndex`, which lies inside the input array
(results, when produced, carry their loop position as `rowIndex`). -/
theorem claim_C10_blank_skip {ρ : Type} (names : List String) (data : List ρ)
    (u : Bool) (t : ℚ) :
    (∀ e ∈ (processPayeeDeduplication names data u t).processQueue,
      e.originalIndex < names.length ∧
      e.name = jsTrim (names.getD e.originalIndex "") ∧ e.name ≠ "") ∧
    (∀ i, i < names.length → jsTrim (names.getD i "") = "" →
      (∀ e ∈ (processPayeeDeduplication names data u t).processQueue,
        e.originalIndex ≠ i) ∧
      (∀ r ∈ (processPayeeDeduplication names data u t).results,
        r.rowIndex ≠ i)) := by
  obtain ⟨hq, hr⟩ := runDedup_shape u t data names 0 ({} : DedupState ρ)
  have hq' : ∀ e ∈ (processPayeeDeduplication names data u t).processQueue,
      e.originalIndex < names.length ∧
      e.name = jsTrim (names.getD e.originalIndex "") ∧ e.name ≠ "" := by
    intro e he
    rcases hq e he with hin | ⟨j, hj, hidx, hnm, hne⟩
    · simp [DedupState] at hin
    · have hidx' : e.originalIndex = j := by omega
      rw [hidx']
      exact ⟨hj, hnm, hne⟩
  refine ⟨hq', fun i hi hblank => ⟨fun e he hcontra => ?_, fun r hrr hcontra => ?_⟩⟩
  · obtain ⟨-, hnm, hne⟩ := hq' e he
    rw [hcontra, hblank] at hnm
    exact hne hnm
  · rcases hr r hrr with hin | ⟨j, hj, hidx, hne⟩
    · simp [DedupState] at hin
    · have : r.rowIndex = j := by omega
      rw [this] at hcontra
      rw [hcontra] at hne
      exact hne hblank

/-- Witness for claim C10: a whitespace-only entry at position 0 yields no
queue entry for that position. -/
theorem claim_C10_blank_skip_witness :
    (∀ e ∈ (processPayeeDeduplication ["  ", "Bob"] ([] : List Unit) true
      90).processQueue, e.originalIndex ≠ 0) ∧
    (∀ r ∈ (processPayeeDeduplication ["  ", "Bob"] ([] : List Unit) true
      90).results, r.rowIndex ≠ 0) :=
  (claim_C10_blank_skip ["  ", "Bob"] ([] : List Unit) true 90).2 0
    (by decide) (by decide)

/-! ### Multiset and grouping lemmas for the deduplication maps -/

theorem allMembers_nil : allMembers [] = [] := rfl

theorem allMembers_cons (p : String × List String) (m : GroupMap) :
    allMembers (p :: m) = p.2 ++ allMembers m := rfl

/-- Swapping the two appended suffixes is a permutation. -/
theorem perm_append_swap {α : Type} (a b c : List α) :
    ((a ++ b) ++ c).Perm ((a ++ c) ++ b) := by
  rw [List.append_assoc, List.append_assoc]
  exact List.perm_append_comm.append_left a

/-- Pushing one member appends it to the map's member multiset. -/
theorem allMembers_mapPush (m : GroupMap) (k v : String) :
    (allMembers (mapPush m k v)).Perm (allMembers m ++ [v]) := by
  induction m with
  | nil => simp [mapPush, allMembers]
  | cons p rest ih =>
    obtain ⟨k', vs⟩ := p
    by_cases hk : k' = k
    · simp only [mapPush, if_pos hk, allMembers_cons]
      exact perm_append_swap vs [v] (allMembers rest)
    · simp only [mapPush, if_neg hk, allMembers_cons]
      have h := ih.append_left vs
      exact h.trans (by rw [List.append_assoc])

/-- Pushing a member list appends it to the map's member multiset. -/
theorem allMembers_mapPushAll (m : GroupMap) (k : String) (vs : List String) :
    (allMembers (mapPushAll m k vs)).Perm (allMembers m ++ vs) := by
  induction m with
  | nil => simp [mapPushAll, allMembers]
  | cons p rest ih =>
    obtain ⟨k', vs'⟩ := p
    by_cases hk : k' = k
    · simp only [mapPushAll, if_pos hk, allMembers_cons]
      exact perm_append_swap vs' vs (allMembers rest)
    · simp only [mapPushAll, if_neg hk, allMembers_cons]
      have h := ih.append_left vs'
      exact h.trans (by rw [List.append_assoc])

/-- First-pass grouping preserves the multiset of names. -/
theorem allMembers_buildExact_aux (names : List String) :
    ∀ acc : GroupMap,
    (allMembers (names.foldl (fun m nm => mapPush m (normalizePayeeName nm) nm) acc)).Perm
      (allMembers acc ++ names) := by
  induction names with
  | nil => intro acc; simp
  | cons nm rest ih =>
    intro acc
    have h1 : (allMembers ((nm :: rest).foldl
        (fun m n => mapPush m (normalizePayeeName n) n) acc)).Perm
        (allMembers (mapPush acc (normalizePayeeName nm) nm) ++ rest) := by
      simpa using ih (mapPush acc (normalizePayeeName nm) nm)
    have h2 := (allMembers_mapPush acc (normalizePayeeName nm) nm).append_right rest
    refine (h1.trans h2).trans ?_
    rw [List.append_assoc]
    simp

theorem allMembers_buildExact (names : List String) :
    (allMembers (buildExact names)).Perm names := by
  simpa [buildExact] using allMembers_buildExact_aux names []

/-- Inversion of the group scan: success decomposes the map at the first
similar canonical. -/
theorem addToFirstSimilar_inv (sim : String → String → Bool)
    (acc : GroupMap) (norm : String) (ms : List String) (acc' : GroupMap)
    (h : addToFirstSimilar sim acc norm ms = some acc') :
    ∃ (l r : GroupMap) (c : String) (g : List String),
      acc = l ++ (c, g) :: r ∧ (∀ p ∈ l, sim norm p.1 = false) ∧
      sim norm c = true ∧ acc' = l ++ (c, g ++ ms) :: r := by
  induction acc generalizing acc' with
  | nil => simp [addToFirstSimilar] at h
  | cons p rest ih =>
    obtain ⟨c₀, g₀⟩ := p
    by_cases hc : sim norm c₀ = true
    · refine ⟨[], rest, c₀, g₀, by simp, by simp, hc, ?_⟩
      simp [addToFirstSimilar, hc] at h
      simp [← h]
    · have hc' : sim norm c₀ = false := by
        cases hsim : sim norm c₀
        · rfl
        · exact absurd hsim hc
      simp only [addToFirstSimilar, hc', Bool.false_eq_true, if_false] at h
      rcases Option.map_eq_some'.1 h with ⟨r', hr', rfl⟩
      obtain ⟨l, r, c, g, hacc, hl, hc2, hacc'⟩ := ih r' hr'
      refine ⟨(c₀, g₀) :: l, r, c, g, ?_, ?_, hc2, ?_⟩
      · simp [hacc]
      · intro p hp
        rcases List.mem_cons.1 hp with rfl | hp'
        · exact hc'
        · exact hl p hp'
      · simp [hacc']

/-- Inversion of a failed group scan: no established canonical is
similar. -/
theorem addToFirstSimilar_none_inv (sim : String → String → Bool)
    (norm : String) (ms : List String) :
    ∀ acc : GroupMap, addToFirstSimilar sim acc norm ms = none →
    ∀ p ∈ acc, sim norm p.1 = false := by
  intro acc
  induction acc with
  | nil => intro _ p hp; cases hp
  | cons q rest ih =>
    intro h p hp
    obtain ⟨c₀, g₀⟩ := q
    by_cases hq : sim norm c₀ = true
    · simp [addToFirstSimilar, hq] at h
    · have hq' : sim norm c₀ = false := by
        cases hsim : sim norm c₀
        · rfl
        · exact absurd hsim hq
      simp only [addToFirstSimilar, hq', Bool.false_eq_true, if_false] at h
      rcases List.mem_cons.1 hp with rfl | hp'
      · exact hq'
      · rcases hmap : addToFirstSimilar sim rest norm ms with _ | r'
        · exact ih hmap p hp'
        · rw [hmap] at h
          simp at h

/-- A second-pass step appends the entry's members to the map's member
multiset, for any similarity relation that accepts a string against
itself. -/
theorem allMembers_pass2Step (t : ℚ) (acc : GroupMap)
    (k : String) (ms : List String) :
    (allMembers (pass2Step (areSimilarNamesT t) acc (k, ms))).Perm
      (allMembers acc ++ ms) := by
  unfold pass2Step
  cases h : addToFirstSimilar (areSimilarNamesT t) acc k ms with
  | some acc' =>
    obtain ⟨l, r, c, g, hacc, -, -, hacc'⟩ :=
      addToFirstSimilar_inv (areSimilarNamesT t) acc k ms acc' h
    subst hacc hacc'
    simp only [allMembers, List.flatMap_append, List.flatMap_cons]
    have hshuffle : ((g ++ ms) ++ r.flatMap Prod.snd).Perm
        ((g ++ r.flatMap Prod.snd) ++ ms) := by
      have h1 : ((g ++ ms) ++ r.flatMap Prod.snd) =
          g ++ (ms ++ r.flatMap Prod.snd) := by rw [List.append_assoc]
      have h2 : (g ++ (ms ++ r.flatMap Prod.snd)).Perm
          (g ++ (r.flatMap Prod.snd ++ ms)) :=
        List.perm_append_comm.append_left g
      rw [h1]
      exact h2.trans (by rw [List.append_assoc])
    have := hshuffle.append_left (l.flatMap Prod.snd)
    refine List.Perm.trans ?_ (this.trans (by simp [List.append_assoc]))
    simp [List.append_assoc]
  | none =>
    have hall : ∀ p ∈ acc, areSimilarNamesT t k p.1 = false :=
      addToFirstSimilar_none_inv (areSimilarNamesT t) k ms acc h
    have hfresh : ∀ p ∈ acc, p.1 ≠ k := by
      intro p hp hkey
      have := hall p hp
      rw [hkey, areSimilarNamesT_refl] at this
      exact absurd this (by simp)
    rw [mapSet_fresh acc k ms hfresh]
    simp [allMembers, List.flatMap_append]

/-- The second-pass fold appends all entry members to the accumulator's
member multiset. -/
theorem allMembers_pass2_fold (t : ℚ) :
    ∀ (entries acc : GroupMap),
    (allMembers (entries.foldl (pass2Step (areSimilarNamesT t)) acc)).Perm
      (allMembers acc ++ allMembers entries) := by
  intro entries
  induction entries with
  | nil => intro acc; simp [allMembers_nil]
  | cons p rest ih =>
    intro acc
    obtain ⟨k, ms⟩ := p
    have h1 := ih (pass2Step (areSimilarNamesT t) acc (k, ms))
    have h2 := (allMembers_pass2Step t acc k ms).append_right (allMembers rest)
    refine ((by simpa using h1 :
      (allMembers (((k, ms) :: rest).foldl (pass2Step (areSimilarNamesT t)) acc)).Perm
        (allMembers (pass2Step (areSimilarNamesT t) acc (k, ms)) ++
          allMembers rest)).trans (h2.trans ?_))
    simp [allMembers_cons, List.append_assoc]

/-- Local deduplication preserves the multiset of names. -/
theorem allMembers_localDedup (t : ℚ) (names : List String) :
    (allMembers (localDeduplicateNamesT t names)).Perm names := by
  have h := allMembers_pass2_fold t (buildExact names) []
  have h2 := allMembers_buildExact names
  refine List.Perm.trans ?_ h2
  simpa [localDeduplicateNamesT] using h

/-- The store split phase preserves the multiset of names: the grouped
members plus the remaining names are a permutation of the accumulator's
members plus the input. -/
theorem splitByStore_perm (store : List (String × String)) :
    ∀ (names : List String) (acc : GroupMap),
    (allMembers (splitByStore store names acc).1 ++
      (splitByStore store names acc).2).Perm (allMembers acc ++ names) := by
  intro names
  induction names with
  | nil => intro acc; simp [splitByStore]
  | cons nm rest ih =>
    intro acc
    simp only [splitByStore]
    split
    · rename_i canonical heq
      by_cases hc : canonical ≠ ""
      · rw [if_pos hc]
        have h1 := ih (mapPush acc canonical nm)
        have h2 := (allMembers_mapPush acc canonical nm).append_right rest
        refine h1.trans (h2.trans ?_)
        simp [List.append_assoc]
      · rw [if_neg hc]
        rcases hsp : splitByStore store rest acc with ⟨m, r⟩
        have ihm : (allMembers m ++ r).Perm (allMembers acc ++ rest) := by
          simpa [hsp] using ih acc
        simp only [hsp]
        have hmid : (allMembers m ++ nm :: r).Perm (nm :: (allMembers m ++ r)) :=
          List.perm_middle
        refine hmid.trans ((ihm.cons nm).trans ?_)
        exact List.perm_middle.symm
    · rcases hsp : splitByStore store rest acc with ⟨m, r⟩
      have ihm : (allMembers m ++ r).Perm (allMembers acc ++ rest) := by
        simpa [hsp] using ih acc
      simp only [hsp]
      have hmid : (allMembers m ++ nm :: r).Perm (nm :: (allMembers m ++ r)) :=
        List.perm_middle
      refine hmid.trans ((ihm.cons nm).trans ?_)
      exact List.perm_middle.symm

/-- Merging the new groups appends their members to the accumulator's
member multiset. -/
theorem allMembers_mergeGroups :
    ∀ (gs acc : GroupMap),
    (allMembers (mergeGroups acc gs)).Perm (allMembers acc ++ allMembers gs) := by
  intro gs
  induction gs with
  | nil => intro acc; simp [mergeGroups, allMembers_nil]
  | cons p rest ih =>
    intro acc
    obtain ⟨c, g⟩ := p
    have hstep : mergeGroups acc ((c, g) :: rest) =
        mergeGroups (mapPushAll acc c g) rest := rfl
    rw [hstep]
    have h1 := ih (mapPushAll acc c g)
    have h2 := (allMembers_mapPushAll acc c g).append_right (allMembers rest)
    refine h1.trans (h2.trans ?_)
    simp [allMembers_cons, List.append_assoc]

/-- The grouping of `deduplicateNames` preserves the input multiset. -/
theorem allMembers_dedupCore (store : List (String × String)) (t : ℚ)
    (names : List String) :
    (allMembers (dedupCore store t names)).Perm names := by
  rcases hsp : splitByStore store names [] with ⟨m, rem⟩
  have hcore : dedupCore store t names =
      mergeGroups m (localDeduplicateNamesT t rem) := by
    simp [dedupCore, hsp]
  rw [hcore]
  have h1 := allMembers_mergeGroups (localDeduplicateNamesT t rem) m
  have h2 := (allMembers_localDedup t rem).append_left (allMembers m)
  have h3 : (allMembers m ++ rem).Perm names := by
    simpa [hsp] using splitByStore_perm store names []
  exact h1.trans (h2.trans h3)

/-! ### Lookup lemmas for the grouping maps -/

theorem mapLookup_cons_self (k : String) (vs : List String) (rest : GroupMap) :
    mapLookup ((k, vs) :: rest) k = some vs := by
  simp [mapLookup, List.find?]

theorem mapLookup_cons_ne (k c : String) (vs : List String) (rest : GroupMap)
    (h : c ≠ k) : mapLookup ((k, vs) :: rest) c = mapLookup rest c := by
  simp [mapLookup, List.find?, Ne.symm h]

theorem mapPush_cons_self (k v : String) (vs : List String) (rest : GroupMap) :
    mapPush ((k, vs) :: rest) k v = (k, vs ++ [v]) :: rest := by
  simp [mapPush]

theorem mapPush_cons_ne (k' k v : String) (vs : List String) (rest : GroupMap)
    (h : k' ≠ k) : mapPush ((k', vs) :: rest) k v = (k', vs) :: mapPush rest k v := by
  simp [mapPush, h]

theorem mapPushAll_cons_self (k : String) (vs' vs : List String)
    (rest : GroupMap) :
    mapPushAll ((k, vs') :: rest) k vs = (k, vs' ++ vs) :: rest := by
  simp [mapPushAll]

theorem mapPushAll_cons_ne (k' k : String) (vs' vs : List String)
    (rest : GroupMap) (h : k' ≠ k) :
    mapPushAll ((k', vs') :: rest) k vs = (k', vs') :: mapPushAll rest k vs := by
  simp [mapPushAll, h]

theorem lookupMembers_mapPush_self (m : GroupMap) (k v : String) :
    lookupMembers (mapPush m k v) k = lookupMembers m k ++ [v] := by
  induction m with
  | nil => simp [mapPush, lookupMembers, mapLookup, List.find?]
  | cons p rest ih =>
    obtain ⟨k', vs⟩ := p
    simp only [lookupMembers] at ih ⊢
    by_cases hk : k' = k
    · subst hk
      rw [mapPush_cons_self, mapLookup_cons_self, mapLookup_cons_self]
      rfl
    · have hne : k ≠ k' := fun hh => hk (Eq.symm hh)
      rw [mapPush_cons_ne k' k v vs rest hk,
        mapLookup_cons_ne k' k vs _ hne, mapLookup_cons_ne k' k vs rest hne]
      exact ih

theorem lookupMembers_mapPush_ne (m : GroupMap) (k v c : String) (h : c ≠ k) :
    lookupMembers (mapPush m k v) c = lookupMembers m c := by
  induction m with
  | nil => simp [mapPush, lookupMembers, mapLookup, List.find?, Ne.symm h]
  | cons p rest ih =>
    obtain ⟨k', vs⟩ := p
    simp only [lookupMembers] at ih ⊢
    by_cases hk : k' = k
    · subst hk
      rw [mapPush_cons_self]
      by_cases hc : c = k'
      · subst hc; exact absurd rfl h
      · rw [mapLookup_cons_ne _ _ _ _ hc, mapLookup_cons_ne _ _ _ _ hc]
    · rw [mapPush_cons_ne k' k v vs rest hk]
      by_cases hc : c = k'
      · subst hc
        rw [mapLookup_cons_self, mapLookup_cons_self]
      · rw [mapLookup_cons_ne _ _ _ _ hc, mapLookup_cons_ne _ _ _ _ hc]
        exact ih

theorem lookupMembers_mapPushAll_self (m : GroupMap) (k : String)
    (vs : List String) :
    lookupMembers (mapPushAll m k vs) k = lookupMembers m k ++ vs := by
  induction m with
  | nil => simp [mapPushAll, lookupMembers, mapLookup, List.find?]
  | cons p rest ih =>
    obtain ⟨k', vs'⟩ := p
    simp only [lookupMembers] at ih ⊢
    by_cases hk : k' = k
    · subst hk
      rw [mapPushAll_cons_self, mapLookup_cons_self, mapLookup_cons_self]
      rfl
    · have hne : k ≠ k' := fun hh => hk (Eq.symm hh)
      rw [mapPushAll_cons_ne k' k vs' vs rest hk,
        mapLookup_cons_ne k' k vs' _ hne, mapLookup_cons_ne k' k vs' rest hne]
      exact ih

theorem lookupMembers_mapPushAll_ne (m : GroupMap) (k c : String)
    (vs : List String) (h : c ≠ k) :
    lookupMembers (mapPushAll m k vs) c = lookupMembers m c := by
  induction m with
  | nil => simp [mapPushAll, lookupMembers, mapLookup, List.find?, Ne.symm h]
  | cons p rest ih =>
    obtain ⟨k', vs'⟩ := p
    simp only [lookupMembers] at ih ⊢
    by_cases hk : k' = k
    · subst hk
      rw [mapPushAll_cons_self]
      by_cases hc : c = k'
      · subst hc; exact absurd rfl h
      · rw [mapLookup_cons_ne _ _ _ _ hc, mapLookup_cons_ne _ _ _ _ hc]
    · rw [mapPushAll_cons_ne k' k vs' vs rest hk]
      by_cases hc : c = k'
      · subst hc
        rw [mapLookup_cons_self, mapLookup_cons_self]
      · rw [mapLookup_cons_ne _ _ _ _ hc, mapLookup_cons_ne _ _ _ _ hc]
        exact ih

theorem mem_lookupMembers_mapPush (m : GroupMap) (k v c x : String)
    (h : x ∈ lookupMembers m c) : x ∈ lookupMembers (mapPush m k v) c := by
  by_cases hc : c = k
  · subst hc
    rw [lookupMembers_mapPush_self]
    exact List.mem_append_left _ h
  · rw [lookupMembers_mapPush_ne m k v c hc]
    exact h

theorem mem_lookupMembers_mapPushAll (m : GroupMap) (k c x : String)
    (vs : List String) (h : x ∈ lookupMembers m c) :
    x ∈ lookupMembers (mapPushAll m k vs) c := by
  by_cases hc : c = k
  · subst hc
    rw [lookupMembers_mapPushAll_self]
    exact List.mem_append_left _ h
  · rw [lookupMembers_mapPushAll_ne m k c vs hc]
    exact h

/-- Bridge from member lists back to the map: a member of `lookupMembers`
exhibits a `some` binding. -/
theorem lookupMembers_some (m : GroupMap) (c x : String)
    (h : x ∈ lookupMembers m c) :
    ∃ ms, mapLookup m c = some ms ∧ x ∈ ms := by
  cases hlk : mapLookup m c with
  | none => rw [lookupMembers, hlk] at h; cases h
  | some ms =>
    rw [lookupMembers, hlk] at h
    exact ⟨ms, rfl, h⟩

/-- A `some` binding is an entry of the association list. -/
theorem mapLookup_some_mem (m : GroupMap) (c : String) (ms : List String)
    (h : mapLookup m c = some ms) : (c, ms) ∈ m := by
  induction m with
  | nil => simp [mapLookup] at h
  | cons p rest ih =>
    obtain ⟨k, vs⟩ := p
    by_cases hc : c = k
    · subst hc
      rw [mapLookup_cons_self] at h
      cases h
      exact List.mem_cons_self _ _
    · rw [mapLookup_cons_ne _ _ _ _ hc] at h
      exact List.mem_cons_of_mem _ (ih h)

theorem mapLookup_append_fresh (m : GroupMap) (k : String) (ms : List String)
    (h : ∀ p ∈ m, p.1 ≠ k) : mapLookup (m ++ [(k, ms)]) k = some ms := by
  induction m with
  | nil => simp [mapLookup_cons_self]
  | cons p rest ih =>
    obtain ⟨k', vs⟩ := p
    have hk : k ≠ k' := fun hh =>
      h (k', vs) (List.mem_cons_self _ _) (Eq.symm hh)
    rw [List.cons_append, mapLookup_cons_ne _ _ _ _ hk]
    exact ih (fun q hq => h q (List.mem_cons_of_mem _ hq))

theorem mapLookup_append_left (m m₂ : GroupMap) (c : String)
    (ms : List String) (h : mapLookup m c = some ms) :
    mapLookup (m ++ m₂) c = some ms := by
  induction m with
  | nil => simp [mapLookup] at h
  | cons p rest ih =>
    obtain ⟨k, vs⟩ := p
    by_cases hc : c = k
    · subst hc
      rw [mapLookup_cons_self] at h
      rw [List.cons_append, mapLookup_cons_self]
      exact h
    · rw [mapLookup_cons_ne _ _ _ _ hc] at h
      rw [List.cons_append, mapLookup_cons_ne _ _ _ _ hc]
      exact ih h

/-- Looking up the distinguished key of a decomposed map whose prefix avoids
the key. -/
theorem mapLookup_append_cons (l r : GroupMap) (c : String) (g : List String)
    (h : ∀ p ∈ l, p.1 ≠ c) : mapLookup (l ++ (c, g) :: r) c = some g := by
  induction l with
  | nil => simp [mapLookup_cons_self]
  | cons p rest ih =>
    obtain ⟨k, vs⟩ := p
    have hk : c ≠ k := fun hh =>
      h (k, vs) (List.mem_cons_self _ _) (Eq.symm hh)
    rw [List.cons_append, mapLookup_cons_ne _ _ _ _ hk]
    exact ih (fun q hq => h q (List.mem_cons_of_mem _ hq))

/-- Replacing the value at one key leaves lookups of other keys unchanged. -/
theorem mapLookup_replace_ne (l r : GroupMap) (c₀ c : String)
    (g g' : List String) (h : c ≠ c₀) :
    mapLookup (l ++ (c₀, g') :: r) c = mapLookup (l ++ (c₀, g) :: r) c := by
  induction l with
  | nil =>
    simp only [List.nil_append]
    rw [mapLookup_cons_ne _ _ _ _ h, mapLookup_cons_ne _ _ _ _ h]
  | cons p rest ih =>
    obtain ⟨k, vs⟩ := p
    by_cases hc : c = k
    · subst hc
      rw [List.cons_append, List.cons_append, mapLookup_cons_self,
        mapLookup_cons_self]
    · rw [List.cons_append, List.cons_append, mapLookup_cons_ne _ _ _ _ hc,
        mapLookup_cons_ne _ _ _ _ hc]
      exact ih

/-! ### Keys and membership through the second pass -/

/-- A successful group scan does not change the canonicals. -/
theorem keys_addToFirstSimilar (sim : String → String → Bool)
    (acc acc' : GroupMap) (k : String) (ms : List String)
    (h : addToFirstSimilar sim acc k ms = some acc') :
    acc'.map Prod.fst = acc.map Prod.fst := by
  obtain ⟨l, r, c, g, hacc, -, -, hacc'⟩ :=
    addToFirstSimilar_inv sim acc k ms acc' h
  subst hacc hacc'
  simp

/-- A second-pass step either keeps the canonicals or appends the fresh
normalized name as a new canonical. -/
theorem keys_pass2Step (t : ℚ) (acc : GroupMap) (k : String)
    (ms : List String) :
    (pass2Step (areSimilarNamesT t) acc (k, ms)).map Prod.fst = acc.map Prod.fst ∨
    ((pass2Step (areSimilarNamesT t) acc (k, ms)).map Prod.fst =
      acc.map Prod.fst ++ [k] ∧ ∀ p ∈ acc, p.1 ≠ k) := by
  unfold pass2Step
  cases h : addToFirstSimilar (areSimilarNamesT t) acc k ms with
  | some acc' => exact Or.inl (keys_addToFirstSimilar _ acc acc' k ms h)
  | none =>
    have hall := addToFirstSimilar_none_inv (areSimilarNamesT t) k ms acc h
    have hfresh : ∀ p ∈ acc, p.1 ≠ k := by
      intro p hp hkey
      have := hall p hp
      rw [hkey, areSimilarNamesT_refl] at this
      exact absurd this (by simp)
    rw [mapSet_fresh acc k ms hfresh]
    exact Or.inr ⟨by simp, hfresh⟩

/-- Memberships survive a second-pass step when the canonicals are
duplicate-free. -/
theorem mem_lookup_pass2Step (t : ℚ) (acc : GroupMap) (k : String)
    (ms : List String) (c x : String) (hnd : (acc.map Prod.fst).Nodup)
    (hx : x ∈ lookupMembers acc c) :
    x ∈ lookupMembers (pass2Step (areSimilarNamesT t) acc (k, ms)) c := by
  unfold pass2Step
  cases h : addToFirstSimilar (areSimilarNamesT t) acc k ms with
  | some acc' =>
    obtain ⟨l, r, c₀, g, hacc, -, -, hacc'⟩ :=
      addToFirstSimilar_inv (areSimilarNamesT t) acc k ms acc' h
    subst hacc hacc'
    have hnotin : ∀ p ∈ l, p.1 ≠ c₀ := by
      intro p hp hkey
      rw [List.map_append, List.map_cons] at hnd
      rcases List.nodup_append.1 hnd with ⟨-, -, hdisj⟩
      exact hdisj (List.mem_map_of_mem Prod.fst hp) (by simp [hkey])
    by_cases hc : c = c₀
    · subst hc
      rw [lookupMembers, mapLookup_append_cons l r c g hnotin] at hx
      rw [lookupMembers, mapLookup_append_cons l r c (g ++ ms) hnotin]
      exact List.mem_append_left _ hx
    · rw [lookupMembers, mapLookup_replace_ne l r c₀ c g (g ++ ms) hc]
      exact hx
  | none =>
    have hall := addToFirstSimilar_none_inv (areSimilarNamesT t) k ms acc h
    have hfresh : ∀ p ∈ acc, p.1 ≠ k := by
      intro p hp hkey
      have := hall p hp
      rw [hkey, areSimilarNamesT_refl] at this
      exact absurd this (by simp)
    rw [mapSet_fresh acc k ms hfresh]
    obtain ⟨ms₀, heq, hxm⟩ := lookupMembers_some acc c x hx
    rw [lookupMembers, mapLookup_append_left acc [(k, ms)] c ms₀ heq]
    exact hxm

/-- The member list of a second-pass entry lands intact in some group of the
map produced by folding the second pass, and established memberships
survive. -/
theorem pass2_fold_entry (t : ℚ) :
    ∀ (entries acc : GroupMap),
    (acc.map Prod.fst).Nodup →
    (∀ k ∈ entries.map Prod.fst, k ∉ acc.map Prod.fst) →
    (entries.map Prod.fst).Nodup →
    (∀ c x, x ∈ lookupMembers acc c →
      x ∈ lookupMembers (entries.foldl (pass2Step (areSimilarNamesT t)) acc) c) ∧
    (∀ p ∈ entries, ∃ c, ∀ x ∈ p.2,
      x ∈ lookupMembers (entries.foldl (pass2Step (areSimilarNamesT t)) acc) c) := by
  intro entries
  induction entries with
  | nil =>
    intro acc _ _ _
    exact ⟨fun c x hx => hx, fun p hp => absurd hp (List.not_mem_nil p)⟩
  | cons e rest ih =>
    intro acc hnd hdisj hend
    obtain ⟨k, ms⟩ := e
    have hkfresh : ∀ p ∈ acc, p.1 ≠ k := by
      intro p hp hkey
      exact hdisj k (by simp) (hkey ▸ List.mem_map_of_mem Prod.fst hp)
    have hknotin : k ∉ acc.map Prod.fst := by
      intro hk
      rcases List.mem_map.1 hk with ⟨p, hp, hpk⟩
      exact hkfresh p hp hpk
    have hkeys := keys_pass2Step t acc k ms
    have hnd' : ((pass2Step (areSimilarNamesT t) acc (k, ms)).map Prod.fst).Nodup := by
      rcases hkeys with heq | ⟨heq, -⟩
      · rw [heq]; exact hnd
      · rw [heq]
        rw [List.nodup_append]
        exact ⟨hnd, List.nodup_singleton k, by
          intro a ha hb
          rcases List.mem_singleton.1 hb with rfl
          exact hknotin ha⟩
    have hdisj' : ∀ k' ∈ rest.map Prod.fst,
        k' ∉ (pass2Step (areSimilarNamesT t) acc (k, ms)).map Prod.fst := by
      intro k' hk' hmem
      have hk'acc : k' ∉ acc.map Prod.fst :=
        hdisj k' (by simp [hk'])
      have hk'k : k' ≠ k := by
        intro hkk
        rw [List.map_cons, List.nodup_cons] at hend
        exact hend.1 (hkk ▸ hk')
      rcases hkeys with heq | ⟨heq, -⟩
      · rw [heq] at hmem; exact hk'acc hmem
      · rw [heq] at hmem
        rcases List.mem_append.1 hmem with hmem | hmem
        · exact hk'acc hmem
        · exact hk'k (List.mem_singleton.1 hmem)
    have hend' : (rest.map Prod.fst).Nodup := by
      rw [List.map_cons, List.nodup_cons] at hend
      exact hend.2
    obtain ⟨ihpres, ihentry⟩ :=
      ih (pass2Step (areSimilarNamesT t) acc (k, ms)) hnd' hdisj' hend'
    refine ⟨fun c x hx => ?_, fun p hp => ?_⟩
    · simp only [List.foldl_cons]
      exact ihpres c x (mem_lookup_pass2Step t acc k ms c x hnd hx)
    · rcases List.mem_cons.1 hp with rfl | hp'
      · have hland : ∃ c, ∀ x ∈ ms,
            x ∈ lookupMembers (pass2Step (areSimilarNamesT t) acc (k, ms)) c := by
          unfold pass2Step
          cases h : addToFirstSimilar (areSimilarNamesT t) acc k ms with
          | some acc' =>
            obtain ⟨l, r, c₀, g, hacc, -, -, hacc'⟩ :=
              addToFirstSimilar_inv (areSimilarNamesT t) acc k ms acc' h
            subst hacc hacc'
            have hnotin : ∀ q ∈ l, q.1 ≠ c₀ := by
              intro q hq hkey
              rw [List.map_append, List.map_cons] at hnd
              rcases List.nodup_append.1 hnd with ⟨-, -, hdisjl⟩
              exact hdisjl (List.mem_map_of_mem Prod.fst hq) (by simp [hkey])
            refine ⟨c₀, fun x hx => ?_⟩
            rw [lookupMembers, mapLookup_append_cons l r c₀ (g ++ ms) hnotin]
            exact List.mem_append_right g hx
          | none =>
            rw [mapSet_fresh acc k ms hkfresh]
            refine ⟨k, fun x hx => ?_⟩
            rw [lookupMembers, mapLookup_append_fresh acc k ms hkfresh]
            exact hx
        obtain ⟨c, hc⟩ := hland
        refine ⟨c, fun x hx => ?_⟩
        simp only [List.foldl_cons]
        exact ihpres c x (hc x hx)
      · simpa only [List.foldl_cons] using ihentry p hp'

/-! ### Membership through the first pass and the store phases -/

/-- Memberships survive the first-pass fold. -/
theorem mem_lookup_buildExact_fold :
    ∀ (names : List String) (acc : GroupMap) (c x : String),
    x ∈ lookupMembers acc c →
    x ∈ lookupMembers
      (names.foldl (fun m n => mapPush m (normalizePayeeName n) n) acc) c := by
  intro names
  induction names with
  | nil => intro acc c x hx; exact hx
  | cons nm rest ih =>
    intro acc c x hx
    simp only [List.foldl_cons]
    exact ih _ c x (mem_lookupMembers_mapPush acc (normalizePayeeName nm) nm c x hx)

/-- Every name lands in the exact group of its normalized form. -/
theorem mem_lookup_buildExact_aux :
    ∀ (names : List String) (acc : GroupMap) (nm : String), nm ∈ names →
    nm ∈ lookupMembers
      (names.foldl (fun m n => mapPush m (normalizePayeeName n) n) acc)
      (normalizePayeeName nm) := by
  intro names
  induction names with
  | nil => intro acc nm h; cases h
  | cons n rest ih =>
    intro acc nm h
    rcases List.mem_cons.1 h with rfl | h'
    · simp only [List.foldl_cons]
      apply mem_lookup_buildExact_fold rest
      rw [lookupMembers_mapPush_self]
      exact List.mem_append_right _ (List.mem_singleton_self nm)
    · simp only [List.foldl_cons]
      exact ih _ nm h'

theorem mem_lookup_buildExact (names : List String) (nm : String)
    (h : nm ∈ names) :
    nm ∈ lookupMembers (buildExact names) (normalizePayeeName nm) :=
  mem_lookup_buildExact_aux names [] nm h

/-- Pushing a member keeps the canonicals, or appends the key as a fresh
canonical. -/
theorem keys_mapPush_cases (m : GroupMap) (k v : String) :
    (mapPush m k v).map Prod.fst = m.map Prod.fst ∨
    ((mapPush m k v).map Prod.fst = m.map Prod.fst ++ [k] ∧
      k ∉ m.map Prod.fst) := by
  induction m with
  | nil => exact Or.inr ⟨rfl, by simp⟩
  | cons p rest ih =>
    obtain ⟨k', vs⟩ := p
    by_cases hk : k' = k
    · subst hk
      rw [mapPush_cons_self]
      exact Or.inl rfl
    · rw [mapPush_cons_ne k' k v vs rest hk]
      rcases ih with heq | ⟨heq, hnin⟩
      · exact Or.inl (by simp [heq])
      · refine Or.inr ⟨by simp [heq], ?_⟩
        simp only [List.map_cons, List.mem_cons]
        rintro (rfl | hmem)
        · exact hk rfl
        · exact hnin hmem

/-- The canonicals of the exact-grouping map are duplicate-free. -/
theorem nodup_keys_buildExact_fold :
    ∀ (names : List String) (acc : GroupMap), (acc.map Prod.fst).Nodup →
    (((names.foldl (fun m n => mapPush m (normalizePayeeName n) n) acc)).map
      Prod.fst).Nodup := by
  intro names
  induction names with
  | nil => intro acc h; exact h
  | cons nm rest ih =>
    intro acc h
    simp only [List.foldl_cons]
    apply ih
    rcases keys_mapPush_cases acc (normalizePayeeName nm) nm with heq | ⟨heq, hnin⟩
    · rw [heq]; exact h
    · rw [heq, List.nodup_append]
      refine ⟨h, List.nodup_singleton _, ?_⟩
      intro a ha hb
      rcases List.mem_singleton.1 hb with rfl
      exact hnin ha

theorem nodup_keys_buildExact (names : List String) :
    ((buildExact names).map Prod.fst).Nodup :=
  nodup_keys_buildExact_fold names [] (by simp)

/-- Where each name goes in the store split phase: names with a truthy
stored canonical join that canonical's group, every other name is left in
`remaining`; accumulated memberships survive. -/
theorem splitByStore_mem (store : List (String × String)) :
    ∀ (names : List String) (acc : GroupMap),
    (∀ c x, x ∈ lookupMembers acc c →
      x ∈ lookupMembers (splitByStore store names acc).1 c) ∧
    (∀ nm ∈ names, ∀ c, storeHit store (normalizePayeeName nm) = some c →
      nm ∈ lookupMembers (splitByStore store names acc).1 c) ∧
    (∀ nm ∈ names, storeHit store (normalizePayeeName nm) = none →
      nm ∈ (splitByStore store names acc).2) := by
  intro names
  induction names with
  | nil =>
    intro acc
    exact ⟨fun c x hx => hx, fun nm h => absurd h (List.not_mem_nil nm),
      fun nm h => absurd h (List.not_mem_nil nm)⟩
  | cons nm rest ih =>
    intro acc
    rcases hlk : (store.find? (fun p => p.1 = normalizePayeeName nm)).map
        (fun p => p.2) with _ | canonical
    · rcases hsp : splitByStore store rest acc with ⟨m, r⟩
      have hstep : splitByStore store (nm :: rest) acc = (m, nm :: r) := by
        simp [splitByStore, hlk, hsp]
      have hhitnm : storeHit store (normalizePayeeName nm) = none := by
        simp [storeHit, hlk]
      refine ⟨fun c x hx => ?_, fun nm2 h2 c hc2 => ?_, fun nm2 h2 hc2 => ?_⟩
      · rw [hstep]
        have := (ih acc).1 c x hx
        rw [hsp] at this
        exact this
      · rcases List.mem_cons.1 h2 with rfl | hmem
        · rw [hhitnm] at hc2; cases hc2
        · rw [hstep]
          have := (ih acc).2.1 nm2 hmem c hc2
          rw [hsp] at this
          exact this
      · rcases List.mem_cons.1 h2 with rfl | hmem
        · rw [hstep]
          exact List.mem_cons_self nm2 r
        · rw [hstep]
          have := (ih acc).2.2 nm2 hmem hc2
          rw [hsp] at this
          exact List.mem_cons_of_mem nm this
    · by_cases hc : canonical ≠ ""
      · have hstep : splitByStore store (nm :: rest) acc =
            splitByStore store rest (mapPush acc canonical nm) := by
          simp [splitByStore, hlk, hc]
        have hhitnm : storeHit store (normalizePayeeName nm) = some canonical := by
          simp [storeHit, hlk, hc]
        refine ⟨fun c x hx => ?_, fun nm2 h2 c hc2 => ?_, fun nm2 h2 hc2 => ?_⟩
        · rw [hstep]
          exact (ih (mapPush acc canonical nm)).1 c x
            (mem_lookupMembers_mapPush acc canonical nm c x hx)
        · rcases List.mem_cons.1 h2 with rfl | hmem
          · rw [hhitnm] at hc2
            cases hc2
            rw [hstep]
            apply (ih (mapPush acc canonical nm2)).1
            rw [lookupMembers_mapPush_self]
            exact List.mem_append_right _ (List.mem_singleton_self nm2)
          · rw [hstep]
            exact (ih (mapPush acc canonical nm)).2.1 nm2 hmem c hc2
        · rcases List.mem_cons.1 h2 with rfl | hmem
          · rw [hhitnm] at hc2; cases hc2
          · rw [hstep]
            exact (ih (mapPush acc canonical nm)).2.2 nm2 hmem hc2
      · rcases hsp : splitByStore store rest acc with ⟨m, r⟩
        have hstep : splitByStore store (nm :: rest) acc = (m, nm :: r) := by
          simp [splitByStore, hlk, hc, hsp]
        have hhitnm : storeHit store (normalizePayeeName nm) = none := by
          simp [storeHit, hlk, hc]
        refine ⟨fun c x hx => ?_, fun nm2 h2 c hc2 => ?_, fun nm2 h2 hc2 => ?_⟩
        · rw [hstep]
          have := (ih acc).1 c x hx
          rw [hsp] at this
          exact this
        · rcases List.mem_cons.1 h2 with rfl | hmem
          · rw [hhitnm] at hc2; cases hc2
          · rw [hstep]
            have := (ih acc).2.1 nm2 hmem c hc2
            rw [hsp] at this
            exact this
        · rcases List.mem_cons.1 h2 with rfl | hmem
          · rw [hstep]
            exact List.mem_cons_self nm2 r
          · rw [hstep]
            have := (ih acc).2.2 nm2 hmem hc2
            rw [hsp] at this
            exact List.mem_cons_of_mem nm this

/-- Memberships survive merges. -/
theorem mem_lookup_mergeGroups_pres :
    ∀ (gs acc : GroupMap) (c x : String), x ∈ lookupMembers acc c →
    x ∈ lookupMembers (mergeGroups acc gs) c := by
  intro gs
  induction gs with
  | nil => intro acc c x hx; exact hx
  | cons p rest ih =>
    intro acc c x hx
    obtain ⟨c₀, g₀⟩ := p
    have hstep : mergeGroups acc ((c₀, g₀) :: rest) =
        mergeGroups (mapPushAll acc c₀ g₀) rest := rfl
    rw [hstep]
    exact ih _ c x (mem_lookupMembers_mapPushAll acc c₀ c x g₀ hx)

/-- Every member of a merged group lands under that group's canonical. -/
theorem mem_lookup_mergeGroups_entry :
    ∀ (gs acc : GroupMap) (c : String) (g : List String) (x : String),
    (c, g) ∈ gs → x ∈ g → x ∈ lookupMembers (mergeGroups acc gs) c := by
  intro gs
  induction gs with
  | nil => intro acc c g x h _; cases h
  | cons p rest ih =>
    intro acc c g x hmem hx
    obtain ⟨c₀, g₀⟩ := p
    have hstep : mergeGroups acc ((c₀, g₀) :: rest) =
        mergeGroups (mapPushAll acc c₀ g₀) rest := rfl
    rw [hstep]
    rcases List.mem_cons.1 hmem with heq | hmem'
    · cases heq
      apply mem_lookup_mergeGroups_pres rest
      rw [lookupMembers_mapPushAll_self]
      exact List.mem_append_right _ hx
    · exact ih _ c g x hmem' hx

/-- Claim C4.  For every store contents and every similarity threshold, the
map returned by `deduplicateNames` partitions the input: the union of the
member lists over all groups equals the input as a multiset, and two names
with equal normalized forms always end up in the same group. -/
theorem claim_C4_partition (store : List (String × String)) (t : ℚ)
    (names : List String) :
    deduplicateNamesE (ε := Unit) (fun _ => Except.ok store)
      (fun _ => Except.ok ()) t names = Except.ok (dedupCore store t names) ∧
    (allMembers (dedupCore store t names)).Perm names ∧
    (∀ x ∈ names, ∀ y ∈ names,
      normalizePayeeName x = normalizePayeeName y →
      ∃ c ms, mapLookup (dedupCore store t names) c = some ms ∧
        x ∈ ms ∧ y ∈ ms) := by
  refine ⟨?_, allMembers_dedupCore store t names, ?_⟩
  · rcases hsplit : splitByStore store names [] with ⟨g, rem⟩
    simp [deduplicateNamesE, dedupCore, hsplit, Except.instMonad, Except.bind,
      Except.map, Except.pure]
  · intro x hx y hy hnorm
    rcases hsp : splitByStore store names [] with ⟨m, rem⟩
    have hcore : dedupCore store t names =
        mergeGroups m (localDeduplicateNamesT t rem) := by
      simp [dedupCore, hsp]
    rw [hcore]
    obtain ⟨hpres, hhit, hmiss⟩ := splitByStore_mem store names []
    cases hstore : storeHit store (normalizePayeeName x) with
    | some c =>
      have hx1 : x ∈ lookupMembers m c := by
        have := hhit x hx c hstore
        rw [hsp] at this
        exact this
      have hy1 : y ∈ lookupMembers m c := by
        have := hhit y hy c (by rw [← hnorm]; exact hstore)
        rw [hsp] at this
        exact this
      have hx2 := mem_lookup_mergeGroups_pres (localDeduplicateNamesT t rem) m c x hx1
      have hy2 := mem_lookup_mergeGroups_pres (localDeduplicateNamesT t rem) m c y hy1
      obtain ⟨ms, heq, hxm⟩ :=
        lookupMembers_some (mergeGroups m (localDeduplicateNamesT t rem)) c x hx2
      refine ⟨c, ms, heq, hxm, ?_⟩
      rw [lookupMembers, heq] at hy2
      exact hy2
    | none =>
      have hx1 : x ∈ rem := by
        have := hmiss x hx hstore
        rw [hsp] at this
        exact this
      have hy1 : y ∈ rem := by
        have := hmiss y hy (by rw [← hnorm]; exact hstore)
        rw [hsp] at this
        exact this
      have hxe := mem_lookup_buildExact rem x hx1
      have hye := mem_lookup_buildExact rem y hy1
      rw [hnorm] at hxe
      obtain ⟨msE, heqE, hxE⟩ :=
        lookupMembers_some (buildExact rem) (normalizePayeeName y) x hxe
      have hyE : y ∈ msE := by
        rw [lookupMembers, heqE] at hye
        exact hye
      have hentry : (normalizePayeeName y, msE) ∈ buildExact rem :=
        mapLookup_some_mem (buildExact rem) (normalizePayeeName y) msE heqE
      obtain ⟨-, hfold⟩ := pass2_fold_entry t (buildExact rem) [] (by simp)
        (by simp) (nodup_keys_buildExact rem)
      obtain ⟨c, hc⟩ := hfold (normalizePayeeName y, msE) hentry
      have hxL : x ∈ lookupMembers (localDeduplicateNamesT t rem) c := hc x hxE
      have hyL : y ∈ lookupMembers (localDeduplicateNamesT t rem) c := hc y hyE
      obtain ⟨g, heqL, hxg⟩ :=
        lookupMembers_some (localDeduplicateNamesT t rem) c x hxL
      have hyg : y ∈ g := by
        rw [lookupMembers, heqL] at hyL
        exact hyL
      have hgrp : (c, g) ∈ localDeduplicateNamesT t rem :=
        mapLookup_some_mem (localDeduplicateNamesT t rem) c g heqL
      have hxF := mem_lookup_mergeGroups_entry (localDeduplicateNamesT t rem)
        m c g x hgrp hxg
      have hyF := mem_lookup_mergeGroups_entry (localDeduplicateNamesT t rem)
        m c g y hgrp hyg
      obtain ⟨ms, heq, hxm⟩ :=
        lookupMembers_some (mergeGroups m (localDeduplicateNamesT t rem)) c x hxF
      refine ⟨c, ms, heq, hxm, ?_⟩
      rw [lookupMembers, heq] at hyF
      exact hyF

/-- Witness for claim C4: with an empty store, `"Acme LLC"` and `"Acme"`
(both normalizing to `"ACME"`) land in one group. -/
theorem claim_C4_partition_witness :
    ∃ c ms, mapLookup (dedupCore [] 85 ["Acme LLC", "Acme"]) c = some ms ∧
      "Acme LLC" ∈ ms ∧ "Acme" ∈ ms :=
  (claim_C4_partition [] 85 ["Acme LLC", "Acme"]).2.2 "Acme LLC" (by simp)
    "Acme" (by simp) (by decide)

/-! ### Result matcher: sorting lemmas and the matching rule -/

/-- Insertion keeps the list sorted for a total transitive comparison. -/
theorem insertOrdered_pairwise {α : Type} (le : α → α → Bool)
    (htot : ∀ a b, le a b = true ∨ le b a = true)
    (htrans : ∀ a b c, le a b = true → le b c = true → le a c = true)
    (x : α) :
    ∀ l : List α, l.Pairwise (fun a b => le a b = true) →
    (insertOrdered le x l).Pairwise (fun a b => le a b = true) := by
  intro l
  induction l with
  | nil => intro _; simp [insertOrdered]
  | cons y ys ih =>
    intro hp
    rw [List.pairwise_cons] at hp
    obtain ⟨hy, hys⟩ := hp
    by_cases h : le y x = true
    · simp only [insertOrdered, if_pos h]
      rw [List.pairwise_cons]
      refine ⟨?_, ih hys⟩
      intro z hz
      have hz' := (insertOrdered_perm le x ys).mem_iff.1 hz
      rcases List.mem_cons.1 hz' with rfl | hz''
      · exact h
      · exact hy z hz''
    · simp only [insertOrdered, if_neg h]
      rw [List.pairwise_cons]
      have hxy : le x y = true := by
        rcases htot x y with hh | hh
        · exact hh
        · exact absurd hh h
      refine ⟨?_, List.Pairwise.cons hy hys⟩
      intro z hz
      rcases List.mem_cons.1 hz with rfl | hz'
      · exact hxy
      · exact htrans x y z hxy (hy z hz')

/-- The stable sort is sorted for a total transitive comparison. -/
theorem stableSort_pairwise {α : Type} (le : α → α → Bool)
    (htot : ∀ a b, le a b = true ∨ le b a = true)
    (htrans : ∀ a b c, le a b = true → le b c = true → le a c = true) :
    ∀ (xs acc : List α), acc.Pairwise (fun a b => le a b = true) →
    (xs.foldl (fun acc x => insertOrdered le x acc) acc).Pairwise
      (fun a b => le a b = true) := by
  intro xs
  induction xs with
  | nil => intro acc h; exact h
  | cons x rest ih =>
    intro acc h
    simp only [List.foldl_cons]
    exact ih _ (insertOrdered_pairwise le htot htrans x acc h)

/-- The fuzzy candidate computation of `findResultByName` is the fuzzy pool
paired with its similarities. -/
theorem fuzzyPool_pairs {ρ : Type} (target : String) (thr : ℚ) :
    ∀ results : List (PayeeClassification ρ),
    (results.filterMap (fun r =>
      if r.payeeName = "" then none
      else
        if combinedDefault (normalizePayeeName r.payeeName)
            (normalizePayeeName target) ≥ thr then
          some (r, combinedDefault (normalizePayeeName r.payeeName)
            (normalizePayeeName target))
        else none)) =
    (fuzzyPoolOf target thr results).map (fun r => (r, simOf target r)) := by
  intro results
  induction results with
  | nil => rfl
  | cons r rest ih =>
    by_cases hname : r.payeeName = ""
    · simp [fuzzyPoolOf, List.filterMap_cons, List.filter_cons, hname, ih]
    · by_cases hsim : combinedDefault (normalizePayeeName r.payeeName)
          (normalizePayeeName target) ≥ thr
      · simp [fuzzyPoolOf, List.filterMap_cons, List.filter_cons, hname, hsim,
          simOf, ih]
      · simp [fuzzyPoolOf, List.filterMap_cons, List.filter_cons, hname, hsim,
          simOf, ih]

/-- Comparison by descending similarity is total. -/
theorem simGe_total (a b : PayeeClassification ρ × ℚ) :
    decide (a.2 ≥ b.2) = true ∨ decide (b.2 ≥ a.2) = true := by
  rcases le_total b.2 a.2 with h | h
  · exact Or.inl (by simpa using h)
  · exact Or.inr (by simpa using h)

/-- Comparison by descending similarity is transitive. -/
theorem simGe_trans (a b c : PayeeClassification ρ × ℚ)
    (h1 : decide (a.2 ≥ b.2) = true) (h2 : decide (b.2 ≥ c.2) = true) :
    decide (a.2 ≥ c.2) = true := by
  simp at h1 h2 ⊢
  exact le_trans h2 h1

/-- Claim C7 (amended).  The function `findResultByName` follows the matcher rule on the
pools restricted to results with a non-empty `payeeName`: among exact
normalized matches it returns the first one carrying the preferred row index
when one exists and otherwise the first exact match in list order; with no
exact match it returns a threshold-clearing candidate, preferring a
preferred-index candidate and otherwise a candidate of maximal combined
similarity; and it returns `none` when no candidate clears the threshold. -/
theorem claim_C7_matcher_rule {ρ : Type} (target : String)
    (results : List (PayeeClassification ρ)) (thr : ℚ) :
    (∀ (p : Nat) (r : PayeeClassification ρ),
      (exactMatchesOf target results).find? (fun r => r.rowIndex = p) = some r →
      findResultByName target results (some p) thr = some r) ∧
    (∀ p : Nat,
      (exactMatchesOf target results).find? (fun r => r.rowIndex = p) = none →
      exactMatchesOf target results ≠ [] →
      findResultByName target results (some p) thr =
        (exactMatchesOf target results).head?) ∧
    (exactMatchesOf target results ≠ [] →
      findResultByName target results none thr =
        (exactMatchesOf target results).head?) ∧
    (∀ pref, exactMatchesOf target results = [] →
      fuzzyPoolOf target thr results = [] →
      findResultByName target results pref thr = none) ∧
    (∀ p : Nat, exactMatchesOf target results = [] →
      (∃ cand ∈ fuzzyPoolOf target thr results, cand.rowIndex = p) →
      ∃ r ∈ fuzzyPoolOf target thr results,
        findResultByName target results (some p) thr = some r ∧
        r.rowIndex = p) ∧
    (∀ p : Nat, exactMatchesOf target results = [] →
      fuzzyPoolOf target thr results ≠ [] →
      (¬∃ cand ∈ fuzzyPoolOf target thr results, cand.rowIndex = p) →
      ∃ r ∈ fuzzyPoolOf target thr results,
        findResultByName target results (some p) thr = some r ∧
        ∀ cand ∈ fuzzyPoolOf target thr results,
          simOf target cand ≤ simOf target r) ∧
    (exactMatchesOf target results = [] →
      fuzzyPoolOf target thr results ≠ [] →
      ∃ r ∈ fuzzyPoolOf target thr results,
        findResultByName target results none thr = some r ∧
        ∀ cand ∈ fuzzyPoolOf target thr results,
          simOf target cand ≤ simOf target r) := by
  have hpairs := fuzzyPool_pairs (ρ := ρ) target thr results
  have hSperm : (stableSort (fun (x y : PayeeClassification ρ × ℚ) => x.2 ≥ y.2)
      ((fuzzyPoolOf target thr results).map (fun r => (r, simOf target r)))).Perm
      ((fuzzyPoolOf target thr results).map (fun r => (r, simOf target r))) := by
    simpa [stableSort] using stableSort_perm
      (fun (x y : PayeeClassification ρ × ℚ) => decide (x.2 ≥ y.2))
      ((fuzzyPoolOf target thr results).map (fun r => (r, simOf target r))) []
  have hSsorted : (stableSort (fun (x y : PayeeClassification ρ × ℚ) => x.2 ≥ y.2)
      ((fuzzyPoolOf target thr results).map (fun r => (r, simOf target r)))).Pairwise
      (fun a b => decide (a.2 ≥ b.2) = true) := by
    simpa [stableSort] using stableSort_pairwise
      (fun (x y : PayeeClassification ρ × ℚ) => decide (x.2 ≥ y.2))
      simGe_total simGe_trans
      ((fuzzyPoolOf target thr results).map (fun r => (r, simOf target r))) []
      List.Pairwise.nil
  refine ⟨fun p r h => ?_, fun p hfind hne => ?_, fun hne => ?_,
    fun pref hexact hpool => ?_, fun p hexact hcand => ?_,
    fun p hexact hpool hnocand => ?_, fun hexact hpool => ?_⟩
  · rcases hex : exactMatchesOf target results with _ | ⟨e, es⟩
    · rw [hex] at h; simp at h
    · rw [hex] at h
      simp only [findResultByName]
      rw [show results.filter (fun r => r.payeeName ≠ "" &&
          normalizePayeeName r.payeeName = normalizePayeeName target) =
        exactMatchesOf target results from rfl, hex]
      simp only [h]
  · rcases hex : exactMatchesOf target results with _ | ⟨e, es⟩
    · exact absurd hex hne
    · rw [hex] at hfind
      simp only [findResultByName]
      rw [show results.filter (fun r => r.payeeName ≠ "" &&
          normalizePayeeName r.payeeName = normalizePayeeName target) =
        exactMatchesOf target results from rfl, hex]
      simp only [hfind, hex, List.head?]
  · rcases hex : exactMatchesOf target results with _ | ⟨e, es⟩
    · exact absurd hex hne
    · simp only [findResultByName]
      rw [show results.filter (fun r => r.payeeName ≠ "" &&
          normalizePayeeName r.payeeName = normalizePayeeName target) =
        exactMatchesOf target results from rfl, hex]
      simp [List.head?]
  · simp only [findResultByName]
    rw [show results.filter (fun r => r.payeeName ≠ "" &&
        normalizePayeeName r.payeeName = normalizePayeeName target) =
      exactMatchesOf target results from rfl, hexact, hpairs, hpool]
    cases pref <;> rfl
  · obtain ⟨cand, hcmem, hcrow⟩ := hcand
    have hpair : (cand, simOf target cand) ∈
        (fuzzyPoolOf target thr results).map (fun r => (r, simOf target r)) :=
      List.mem_map_of_mem _ hcmem
    have hpairS := hSperm.mem_iff.2 hpair
    rcases hs : stableSort (fun (x y : PayeeClassification ρ × ℚ) => x.2 ≥ y.2)
        ((fuzzyPoolOf target thr results).map (fun r => (r, simOf target r))) with
      _ | ⟨c, cs⟩
    · rw [hs] at hpairS; cases hpairS
    · have hsome : ((c :: cs).find? (fun x => x.1.rowIndex = p)).isSome := by
        rw [List.find?_isSome]
        exact ⟨(cand, simOf target cand), by rw [← hs]; exact hpairS, by
          simpa using hcrow⟩
      rcases hfind : (c :: cs).find? (fun x => x.1.rowIndex = p) with _ | pr
      · rw [hfind] at hsome; cases hsome
      · have hprmem : pr ∈ c :: cs := List.mem_of_find?_eq_some hfind
        have hprm : pr ∈ (fuzzyPoolOf target thr results).map
            (fun r => (r, simOf target r)) := by
          apply hSperm.mem_iff.1
          rw [hs]
          exact hprmem
        rcases List.mem_map.1 hprm with ⟨r0, hr0, hr0eq⟩
        have hpred := List.find?_some hfind
        refine ⟨pr.1, ?_, ?_, ?_⟩
        · rw [← hr0eq]; exact hr0
        · simp only [findResultByName]
          rw [show results.filter (fun r => r.payeeName ≠ "" &&
              normalizePayeeName r.payeeName = normalizePayeeName target) =
            exactMatchesOf target results from rfl, hexact, hpairs, hs]
          simp only [hfind]
        · simpa using hpred
  · rcases hs : stableSort (fun (x y : PayeeClassification ρ × ℚ) => x.2 ≥ y.2)
        ((fuzzyPoolOf target thr results).map (fun r => (r, simOf target r))) with
      _ | ⟨c, cs⟩
    · exfalso
      rcases hpl : fuzzyPoolOf target thr results with _ | ⟨q, qs⟩
      · exact hpool hpl
      · have : (q, simOf target q) ∈ (fuzzyPoolOf target thr results).map
            (fun r => (r, simOf target r)) := by
          rw [hpl]; exact List.mem_map_of_mem _ (List.mem_cons_self q qs)
        have := hSperm.mem_iff.2 this
        rw [hs] at this
        cases this
    · have hfindnone : (c :: cs).find? (fun x => x.1.rowIndex = p) = none := by
        rw [List.find?_eq_none]
        intro x hx hpred
        apply hnocand
        have hxm : x ∈ (fuzzyPoolOf target thr results).map
            (fun r => (r, simOf target r)) := by
          apply hSperm.mem_iff.1
          rw [hs]; exact hx
        rcases List.mem_map.1 hxm with ⟨r0, hr0, hr0eq⟩
        exact ⟨r0, hr0, by
          have : x.1.rowIndex = p := by simpa using hpred
          rw [← hr0eq] at this
          exact this⟩
      have hcm : c ∈ (fuzzyPoolOf target thr results).map
          (fun r => (r, simOf target r)) := by
        apply hSperm.mem_iff.1
        rw [hs]; exact List.mem_cons_self c cs
      rcases List.mem_map.1 hcm with ⟨r0, hr0, hr0eq⟩
      refine ⟨c.1, by rw [← hr0eq]; exact hr0, ?_, ?_⟩
      · simp only [findResultByName]
        rw [show results.filter (fun r => r.payeeName ≠ "" &&
            normalizePayeeName r.payeeName = normalizePayeeName target) =
          exactMatchesOf target results from rfl, hexact, hpairs, hs]
        simp only [hfindnone]
      · intro cand hcand2
        have hpair : (cand, simOf target cand) ∈
            (fuzzyPoolOf target thr results).map (fun r => (r, simOf target r)) :=
          List.mem_map_of_mem _ hcand2
        have hpairS := hSperm.mem_iff.2 hpair
        rw [hs] at hpairS
        have hc2 : c.2 = simOf target c.1 := by
          rw [← hr0eq]
        rcases List.mem_cons.1 hpairS with heq | hmemcs
        · have hceq : c.2 = simOf target cand := by rw [← heq]
          rw [hc2] at hceq
          exact le_of_eq hceq.symm
        · rw [hs] at hSsorted
          rw [List.pairwise_cons] at hSsorted
          have := hSsorted.1 (cand, simOf target cand) hmemcs
          simp at this
          rw [hc2] at this
          exact this
  · rcases hs : stableSort (fun (x y : PayeeClassification ρ × ℚ) => x.2 ≥ y.2)
        ((fuzzyPoolOf target thr results).map (fun r => (r, simOf target r))) with
      _ | ⟨c, cs⟩
    · exfalso
      rcases hpl : fuzzyPoolOf target thr results with _ | ⟨q, qs⟩
      · exact hpool hpl
      · have : (q, simOf target q) ∈ (fuzzyPoolOf target thr results).map
            (fun r => (r, simOf target r)) := by
          rw [hpl]; exact List.mem_map_of_mem _ (List.mem_cons_self q qs)
        have := hSperm.mem_iff.2 this
        rw [hs] at this
        cases this
    · have hcm : c ∈ (fuzzyPoolOf target thr results).map
          (fun r => (r, simOf target r)) := by
        apply hSperm.mem_iff.1
        rw [hs]; exact List.mem_cons_self c cs
      rcases List.mem_map.1 hcm with ⟨r0, hr0, hr0eq⟩
      refine ⟨c.1, by rw [← hr0eq]; exact hr0, ?_, ?_⟩
      · simp only [findResultByName]
        rw [show results.filter (fun r => r.payeeName ≠ "" &&
            normalizePayeeName r.payeeName = normalizePayeeName target) =
          exactMatchesOf target results from rfl, hexact, hpairs, hs]
      · intro cand hcand2
        have hpair : (cand, simOf target cand) ∈
            (fuzzyPoolOf target thr results).map (fun r => (r, simOf target r)) :=
          List.mem_map_of_mem _ hcand2
        have hpairS := hSperm.mem_iff.2 hpair
        rw [hs] at hpairS
        have hc2 : c.2 = simOf target c.1 := by
          rw [← hr0eq]
        rcases List.mem_cons.1 hpairS with heq | hmemcs
        · have hceq : c.2 = simOf target cand := by rw [← heq]
          rw [hc2] at hceq
          exact le_of_eq hceq.symm
        · rw [hs] at hSsorted
          rw [List.pairwise_cons] at hSsorted
          have := hSsorted.1 (cand, simOf target cand) hmemcs
          simp at this
          rw [hc2] at this
          exact this

/-- Claim C7 (counterexample).  A result whose `payeeName` is the empty string
normalizes exactly to the normalized empty target, so the claim as stated
puts it among the exact matches and demands it be returned; the code's falsy
guard `if (!result.payeeName) return false` skips it in both phases and
returns `null`. -/
theorem claim_C7_counterexample :
    normalizePayeeName blankNameRow.payeeName = normalizePayeeName "" ∧
    blankNameRow ∈ [blankNameRow] ∧
    findResultByName "" [blankNameRow] none 80 = none := by
  refine ⟨rfl, by simp, ?_⟩
  rfl

/-- Witness for claim C7: in the exporter test scenario, the preferred row
index 1 is returned when present, and the first exact match is returned when
the preferred index 5 is absent. -/
theorem claim_C7_matcher_rule_witness :
    findResultByName "Acme" [acmeRow0, acmeRow1] (some 1) 80 = some acmeRow1 ∧
    findResultByName "Acme" [acmeRow0, acmeRow1] (some 5) 80 = some acmeRow0 := by
  constructor
  · exact (claim_C7_matcher_rule "Acme" [acmeRow0, acmeRow1] 80).1 1 acmeRow1
      (by decide)
  · have h := (claim_C7_matcher_rule "Acme" [acmeRow0, acmeRow1] 80).2.1 5
      (by decide) (by decide)
    rw [h]
    decide

end PayeeEngine
